import Mathlib

/-!
# Request strategy of the torrent client (`request-strategy.go`)

A shallow embedding of `clientPieceRequestOrder` (piece records, the three-level
comparator `less`, the stable `sort`) and of `Client.doRequests` (storage
admission, the per-chunk walk over the ranked peers, the rotation of the
requestees and the interest turn-off), followed by the theorems about them.

Pointers are modelled by identifiers (`Nat`), Go `int`/`int64` values by `Int`
(no arithmetic of the file can overflow: the only subtraction is guarded by a
comparison), Go `float64` values by `float64` (NaN or a number), slices by `List`.
-/

namespace RequestStrategy

/-! ## Floating point rates -/

/-- A Go `float64` as far as `==`, `<` and `<=` read it: not-a-number, or a number.
Of the numbers only the order is read, so a number is represented by an integer
that keeps that order (the infinities included). -/
inductive float64 where
  | NaN
  | num (x : Int)
  deriving DecidableEq, Repr

/-- The Go comparison `l == r` on float64: false as soon as a side is NaN. -/
def float64.eq : float64 → float64 → Bool
  | float64.num x, float64.num y => decide (x = y)
  | _, _ => false

/-- The Go comparison `l < r` on float64: false as soon as a side is NaN. -/
def float64.lt : float64 → float64 → Bool
  | float64.num x, float64.num y => decide (x < y)
  | _, _ => false

/-- The Go comparison `l <= r` on float64: false as soon as a side is NaN. -/
def float64.le : float64 → float64 → Bool
  | float64.num x, float64.num y => decide (x ≤ y)
  | _, _ => false

/-! ## The `multiless` helper used by the comparator

`github.com/anacrolix/multiless` is an external library: a chain of comparisons
in which a later comparison only counts while the earlier ones were ties. -/

namespace multiless

/-- The `Computation` value of multiless: `ok` is set once some comparison has
decided, `less` is the decision. -/
structure Computation where
  ok : Bool
  less : Bool
  deriving DecidableEq, Repr

/-- The call `multiless.New()`: the zero value, nothing decided. -/
def New : Computation := { ok := false, less := false }

/-- The method `EagerSameLess(same, less)`: keeps an earlier decision, skips a tie,
otherwise decides. -/
def Computation.EagerSameLess (me : Computation) (same less : Bool) : Computation :=
  if me.ok || same then me else { ok := true, less := less }

/-- The method `Less()`: the decision reached (false when all were ties). -/
def Computation.Less (me : Computation) : Bool := me.less

/-- The method `Float64(l, r)`: compares two floats with `==` and `<`, smaller first.
With a NaN on a side both comparisons are false, so the chain is decided as "not
less" and later comparisons are not consulted. -/
def Computation.Float64 (me : Computation) (l r : float64) : Computation :=
  me.EagerSameLess (l.eq r) (l.lt r)

/-- The method `Uintptr(l, r)`: compares two addresses, smaller first. -/
def Computation.Uintptr (me : Computation) (l r : Nat) : Computation :=
  me.EagerSameLess (decide (l = r)) (decide (l < r))

/-- The method `Int(l, r)`: compares two ints, smaller first. -/
def Computation.Int (me : Computation) (l r : Int) : Computation :=
  me.EagerSameLess (decide (l = r)) (decide (l < r))

/-- The method `Bool(l, r)`: compares two bools, `false` first. -/
def Computation.Bool (me : Computation) (l r : Bool) : Computation :=
  me.EagerSameLess (l == r) r

end multiless

/-! ## Piece records and the request order -/

/-- The struct `pieceRequestOrderPiece`. The owning torrent pointer `t` is an
identifier; the Go field `partial` is spelled `partialFlag` here. -/
structure pieceRequestOrderPiece where
  t : Nat
  index : Nat
  prio : Int
  partialFlag : Bool
  availability : Int
  deriving DecidableEq, Repr

/-- The comparator `clientPieceRequestOrder.less`, on the two records it reads:
priority descending, then partial first, then availability ascending. -/
def less (i j : pieceRequestOrderPiece) : Bool :=
  (((multiless.New.Int j.prio i.prio).Bool j.partialFlag i.partialFlag).Int
    i.availability j.availability).Less

/-- The inner loop of the library insertion sort (`for j := i; j > a &&
less(j, j-1); j--  swap`): the new element `x` moves left past every neighbour it is
less than. The already sorted prefix is held reversed, nearest neighbour first. -/
def sink {α : Type} (lt : α → α → Bool) (x : α) : List α → List α
  | [] => [x]
  | y :: rest => if lt x y then y :: sink lt x rest else x :: y :: rest

/-- The library routine `sort.SliceStable(data, less)`: a stable sort. It is modelled by
the insertion sort the library runs on a block (the whole slice up to 20
elements; longer slices are blocks merged stably, with the same result for a
strict weak order). -/
def SliceStable {α : Type} (lt : α → α → Bool) (data : List α) : List α :=
  (data.foldl (fun rev x => sink lt x rev) []).reverse

/-- The method `clientPieceRequestOrder.sort`: stable sort of the records by `less`. -/
def sort (pieces : List pieceRequestOrderPiece) : List pieceRequestOrderPiece :=
  SliceStable less pieces

/-- The three fields `less` reads. -/
def sortKey (p : pieceRequestOrderPiece) : Int × Bool × Int :=
  (p.prio, p.partialFlag, p.availability)

/-- The order the comparator is meant to realise: priority descending, partial
before non-partial, availability ascending (lexicographic). -/
def lexLess (i j : pieceRequestOrderPiece) : Prop :=
  j.prio < i.prio ∨
  (i.prio = j.prio ∧ i.partialFlag = true ∧ j.partialFlag = false) ∨
  (i.prio = j.prio ∧ i.partialFlag = j.partialFlag ∧ i.availability < j.availability)

/-- The ordering of two positions `i < j` of a sorted request order. -/
def inOrder (a b : pieceRequestOrderPiece) : Prop :=
  b.prio ≤ a.prio ∧
  (a.prio = b.prio → (a.partialFlag = true ∨ b.partialFlag = false)) ∧
  (a.prio = b.prio → a.partialFlag = b.partialFlag → a.availability ≤ b.availability)

instance lexLess.decidable (i j : pieceRequestOrderPiece) : Decidable (lexLess i j) := by
  unfold lexLess
  infer_instance

instance inOrder.decidable (a b : pieceRequestOrderPiece) : Decidable (inOrder a b) := by
  unfold inOrder
  infer_instance

/-! ## The world `doRequests` reads -/

/-- The struct `ChunkSpec` of a request: offset and length inside the piece. -/
structure ChunkSpec where
  Begin : Nat
  Length : Nat
  deriving DecidableEq, Repr

/-- The struct `Request`: piece index and chunk. -/
structure Request where
  Index : Nat
  chunk : ChunkSpec
  deriving DecidableEq, Repr

/-- What `doRequests` reads of a `*Peer`; `downloadRate` is the float64 returned by
`downloadRate()`. -/
structure Peer where
  closed : Bool
  downloadRate : float64
  peerChoking : Bool
  numLocalRequests : Nat
  writeBufferFull : Bool
  interested : Bool
  deriving DecidableEq, Repr

/-- What `doRequests` reads of `t.piece(index)` and of the per-piece queries of the
torrent. `undirtied` lists the chunks `iterUndirtiedChunks` passes to its callback,
in its order. -/
structure Piece where
  length : Nat
  ignorePieceForRequests : Bool
  undirtied : List ChunkSpec
  uncachedPriority : Int
  piecePartiallyDownloaded : Bool
  pieceAvailability : Int

/-- What `doRequests` reads of a `*Torrent`. `Capacity` is `t.storage.Capacity`: nil, or
the identity of the capacity function; `peers` is the order of `iterPeers`. -/
structure TorrentData where
  haveInfo : Bool
  numPieces : Nat
  Capacity : Option Nat
  peers : List Nat
  piece : Nat → Piece

/-- The client at the start of a pass: the torrents of `cl.torrents` in iteration
order (pointers), the torrent behind each pointer, and what each capacity function
returns when called (nil, or a pointer to this many bytes), and the peer behind
each peer pointer. -/
structure Client where
  torrents : List Nat
  torrent : Nat → TorrentData
  capacity : Nat → Option Int
  peer : Nat → Peer

/-- The peer methods `request` and `cancel`, which live outside this file: given the
peer pointer and its state they give the new state, and `request` also whether it
returned no error. -/
structure PeerOps where
  request : Nat → Peer → Request → Peer × Bool
  cancel : Nat → Peer → Request → Peer

/-- Modelled from the spec: the peer method `setInterested`, which lives outside this
file, sets the interest flag of the peer. -/
def setInterested (p : Peer) (interested : Bool) : Peer :=
  { p with interested := interested }

/-- The calls a pass makes on its collaborators, in order; `reserve` is a ghost
event marking the admission of a piece (the decrement site). -/
inductive Event where
  | capacity (c : Nat)
  | reserve (t index length : Nat)
  | request (peer : Nat) (req : Request) (ok : Bool)
  | cancel (peer : Nat) (req : Request)
  | setInterested (peer : Nat) (interested : Bool)
  deriving DecidableEq, Repr

/-- The mutable state of a pass: the peer heap, the map `allPeers`, the map
`storageLeft` (outer `none`: key absent; inner `none`: nil pointer; each capacity
function is taken to return a pointer to a cell of its own), the set `contributed`
(in insertion order) and the calls made so far. -/
structure State where
  peer : Nat → Peer
  allPeers : Nat → List Nat
  storageLeft : Nat → Option (Option Int)
  contributed : List Nat
  log : List Event

/-! ## The request order -/

/-- The method `clientPieceRequestOrder.addPieces`: the loop over `iter.N(numPieces)`
appends one record per index, with the zero value in the other fields. -/
def addPieces (pieces : List pieceRequestOrderPiece) (t : Nat) (numPieces : Nat) :
    List pieceRequestOrderPiece :=
  (List.range numPieces).foldl
    (fun me i =>
      me ++ [{ t := t, index := i, prio := 0, partialFlag := false, availability := 0 }])
    pieces

/-- The method `clientPieceRequestOrder.removePieces`, `numPieces` being the value of
`t.numPieces()`: the new slice is made with capacity `len(me.pieces) - numPieces`
(`none` is the run-time panic of `make` on a negative capacity), then the records of
the other torrents are appended to it in order. -/
def removePieces (pieces : List pieceRequestOrderPiece) (t : Nat) (numPieces : Nat) :
    Option (List pieceRequestOrderPiece) :=
  if (pieces.length : Int) - (numPieces : Int) < 0 then none
  else some (pieces.foldl (fun newPieces p => if p.t != t then newPieces ++ [p] else newPieces) [])

/-- The method `clientPieceRequestOrder.update`. -/
def update (cl : Client) (pieces : List pieceRequestOrderPiece) :
    List pieceRequestOrderPiece :=
  pieces.map fun p =>
    { p with
      prio := ((cl.torrent p.t).piece p.index).uncachedPriority
      partialFlag := ((cl.torrent p.t).piece p.index).piecePartiallyDownloaded
      availability := ((cl.torrent p.t).piece p.index).pieceAvailability }

/-! ## The pass `Client.doRequests` -/

/-- The comparator of the peer sort: download rate descending, then pointer
descending. -/
def peerLess (peer : Nat → Peer) (i j : Nat) : Bool :=
  ((multiless.New.Float64 (peer j).downloadRate (peer i).downloadRate).Uintptr j i).Less

/-- The library routine `sort.Slice(data, less)`, modelled by the insertion sort the
library runs on short slices. -/
def Slice {α : Type} (lt : α → α → Bool) (data : List α) : List α :=
  (data.foldl (fun rev x => sink lt x rev) []).reverse

/-- The state before any torrent is looked at: empty maps, no call made. -/
def initState (cl : Client) : State :=
  { peer := cl.peer, allPeers := fun _ => [], storageLeft := fun _ => none,
    contributed := [], log := [] }

/-- The priming of `storageLeft` for a torrent with info: the capacity function is
called when the torrent has one and its key is not in the map yet. -/
def primeStorage (cl : Client) (s : State) (t : Nat) : State :=
  match (cl.torrent t).Capacity with
  | none => s
  | some c =>
    match s.storageLeft c with
    | some _ => s
    | none =>
      { s with
        storageLeft := Function.update s.storageLeft c (some (cl.capacity c))
        log := s.log ++ [Event.capacity c] }

/-- The body of the first loop of `doRequests` for the torrent `t`: prime the
storage budget and add the pieces when the info is there, then rank the peers
that are not closed. -/
def buildTorrent (cl : Client) (b : List pieceRequestOrderPiece × State) (t : Nat) :
    List pieceRequestOrderPiece × State :=
  let b1 : List pieceRequestOrderPiece × State :=
    if (cl.torrent t).haveInfo then
      (addPieces b.1 t (cl.torrent t).numPieces, primeStorage cl b.2 t)
    else b
  let peers := (cl.torrent t).peers.filter fun p => !(b1.2.peer p).closed
  (b1.1, { b1.2 with
    allPeers := Function.update b1.2.allPeers t (Slice (peerLess b1.2.peer) peers) })

/-- The first loop of `doRequests`, then `update` and `sort` of the request order. -/
def build (cl : Client) : List pieceRequestOrderPiece × State :=
  let b := cl.torrents.foldl (buildTorrent cl) ([], initState cl)
  (sort (update cl b.1), b.2)

/-- The statement `contributed[peerIndex] = struct{}{}`: insertion into the set. -/
def insertContributed (contributed : List Nat) (peerIndex : Nat) : List Nat :=
  if peerIndex ∈ contributed then contributed else contributed ++ [peerIndex]

/-- The loop `for peerIndex, peer := range peers` for one chunk, from position
`peerIndex` on: cancel once the chunk is requested, otherwise try to request. -/
def walkPeers (ops : PeerOps) (req : Request) :
    List Nat → Nat → Bool → State → State
  | [], _, _, s => s
  | p :: rest, peerIndex, alreadyRequested, s =>
    if alreadyRequested then
      walkPeers ops req rest (peerIndex + 1) true
        { s with
          peer := Function.update s.peer p (ops.cancel p (s.peer p) req)
          log := s.log ++ [Event.cancel p req] }
    else
      let r := ops.request p (s.peer p) req
      walkPeers ops req rest (peerIndex + 1) r.2
        { s with
          peer := Function.update s.peer p r.1
          log := s.log ++ [Event.request p req r.2]
          contributed :=
            if r.2 then insertContributed s.contributed peerIndex else s.contributed }

/-- The callback of `iterUndirtiedChunks` for one chunk of piece `index`. -/
def requestChunk (ops : PeerOps) (index : Nat) (peers : List Nat) (s : State)
    (chunk : ChunkSpec) : State :=
  walkPeers ops { Index := index, chunk := chunk } peers 0 false s

/-- The statement `peers[i], peers[j] = peers[j], peers[i]`; `none` is the index
out of range panic. -/
def swapAt (peers : List Nat) (i : Nat) (j : Int) : Option (List Nat) :=
  if j < 0 then none
  else
    match peers[i]?, peers[j.toNat]? with
    | some a, some b => some ((peers.set i b).set j.toNat a)
    | _, _ => none

/-- The loop `for peerIndex := range contributed`, the keys coming in the order
`order`: swap with `lastIndex`, then `lastIndex--`. -/
def rotateLoop : List Nat → List Nat → Int → Option (List Nat)
  | [], peers, _ => some peers
  | peerIndex :: rest, peers, lastIndex =>
    match swapAt peers peerIndex lastIndex with
    | none => none
    | some peers1 => rotateLoop rest peers1 (lastIndex - 1)

/-- The step "move requestees for this piece to the back": `lastIndex` starts at
`len(peers) - 1`. -/
def rotate (peers : List Nat) (order : List Nat) : Option (List Nat) :=
  rotateLoop order peers ((peers.length : Int) - 1)

/-- The lookup `storageLeft[p.t.storage.Capacity]`: nil for a nil key, an absent key
or a nil pointer. -/
def storageLookup (s : State) (cap : Option Nat) : Option Int :=
  match cap with
  | none => none
  | some c => (s.storageLeft c).join

/-- The storage admission of the piece loop (`if left := storageLeft[...]; left != nil`):
`none` is the `continue` taken when the piece is longer than what is left; otherwise
the length is subtracted when there is a budget. The admission is marked in the log. -/
def admission (cl : Client) (p : pieceRequestOrderPiece) (s : State) : Option State :=
  match (cl.torrent p.t).Capacity, storageLookup s (cl.torrent p.t).Capacity with
  | some c, some left =>
    if left < (((cl.torrent p.t).piece p.index).length : Int) then none
    else some { s with
      storageLeft := Function.update s.storageLeft c
        (some (some (left - (((cl.torrent p.t).piece p.index).length : Int))))
      log := s.log ++ [Event.reserve p.t p.index ((cl.torrent p.t).piece p.index).length] }
  | _, _ =>
    some { s with
      log := s.log ++ [Event.reserve p.t p.index ((cl.torrent p.t).piece p.index).length] }

/-- The chunk loop of a piece (`iterUndirtiedChunks`) followed by the move of the
requestees to the back of `peers`, which is written back through the shared slice.
`order` tells in which order the map `contributed` is ranged over. -/
def requestAndRotate (ops : PeerOps) (order : List Nat → List Nat)
    (p : pieceRequestOrderPiece) (peers : List Nat) (chunks : List ChunkSpec) (s1 : State) :
    Option State :=
  match rotate peers
      (order (chunks.foldl (requestChunk ops p.index peers) s1).contributed) with
  | none => none
  | some peers1 =>
    some { chunks.foldl (requestChunk ops p.index peers) s1 with
      allPeers :=
        Function.update (chunks.foldl (requestChunk ops p.index peers) s1).allPeers p.t peers1
      contributed := [] }

/-- The body of the piece loop of `doRequests` for the record `p`: skip an ignored
piece, skip a piece that is not admitted, otherwise request its chunks and rotate. -/
def processPiece (ops : PeerOps) (cl : Client) (order : List Nat → List Nat)
    (p : pieceRequestOrderPiece) (s : State) : Option State :=
  if ((cl.torrent p.t).piece p.index).ignorePieceForRequests then some s
  else
    match admission cl p s with
    | none => some s
    | some s1 =>
      requestAndRotate ops order p (s.allPeers p.t)
        ((cl.torrent p.t).piece p.index).undirtied s1

/-- The piece loop of `doRequests`; `mapOrder k` is the order in which the map
`contributed` is ranged over after the `k`-th record. -/
def dispatch (ops : PeerOps) (cl : Client) (mapOrder : Nat → List Nat → List Nat) :
    Nat → List pieceRequestOrderPiece → State → Option State
  | _, [], s => some s
  | k, p :: rest, s =>
    match processPiece ops cl (mapOrder k) p s with
    | none => none
    | some s1 => dispatch ops cl mapOrder (k + 1) rest s1

/-- The body of the last loop of `doRequests` for one peer. -/
def interestPeer (s : State) (p : Nat) : State :=
  if !(s.peer p).peerChoking && (s.peer p).numLocalRequests == 0
      && !(s.peer p).writeBufferFull then
    { s with
      peer := Function.update s.peer p (setInterested (s.peer p) false)
      log := s.log ++ [Event.setInterested p false] }
  else s

/-- The last loop of `doRequests`: every peer of every torrent. -/
def interestPhase (cl : Client) (s : State) : State :=
  cl.torrents.foldl (fun s t => (cl.torrent t).peers.foldl interestPeer s) s

/-- The method `Client.doRequests`: build, dispatch, interest turn-off. `none` is a
run-time panic. -/
def doRequests (ops : PeerOps) (mapOrder : Nat → List Nat → List Nat) (cl : Client) :
    Option State :=
  match dispatch ops cl mapOrder 0 (build cl).1 (build cl).2 with
  | none => none
  | some s => some (interestPhase cl s)

/-! ## Concrete records used as examples -/

/-- The non-partial piece of download 1: priority 10, availability 3. -/
def d1Plain : pieceRequestOrderPiece :=
  { t := 1, index := 0, prio := 10, partialFlag := false, availability := 3 }

/-- The partial piece of download 1: priority 10, availability 1. -/
def d1Partial : pieceRequestOrderPiece :=
  { t := 1, index := 1, prio := 10, partialFlag := true, availability := 1 }

/-- The piece of download 2: priority 20. -/
def d2Piece : pieceRequestOrderPiece :=
  { t := 2, index := 0, prio := 20, partialFlag := false, availability := 0 }

/-- The event is a call of `request(req)` on the peer `q` (failed or not). -/
def Event.isRequestTo (q : Nat) (req : Request) : Event → Bool
  | Event.request p r _ => p == q && r == req
  | _ => false

/-- The event is a call of `cancel(req)` on the peer `q`. -/
def Event.isCancelTo (q : Nat) (req : Request) : Event → Bool
  | Event.cancel p r => p == q && r == req
  | _ => false

/-- The event is a call of `request` that returned no error. -/
def Event.isAccepted : Event → Bool
  | Event.request _ _ ok => ok
  | _ => false

/-- The event is a call of `request` or of `cancel`. -/
def Event.isPeerCall : Event → Bool
  | Event.request _ _ _ => true
  | Event.cancel _ _ => true
  | _ => false

/-- Peer methods for the examples: only the peer with pointer 1 accepts a request
(and counts it); `cancel` changes nothing. -/
def onlyFirstOps : PeerOps :=
  { request := fun p st _ =>
      if p = 1 then ({ st with numLocalRequests := st.numLocalRequests + 1 }, true)
      else (st, false)
    cancel := fun _ st _ => st }

/-- Peer methods for the examples: a peer accepts a request while it has no
outstanding one and is not choking; `cancel` changes nothing. -/
def oneSlotOps : PeerOps :=
  { request := fun _ st _ =>
      if st.numLocalRequests = 0 && !st.peerChoking then
        ({ st with numLocalRequests := st.numLocalRequests + 1 }, true)
      else (st, false)
    cancel := fun _ st _ => st }

/-- A live peer with no request outstanding, for the examples. -/
def idlePeer : Peer :=
  { closed := false, downloadRate := float64.num 0, peerChoking := false, numLocalRequests := 0,
    writeBufferFull := false, interested := true }

/-- The peer a `request` call was made on. -/
def Event.requestedPeer : Event → Option Nat
  | Event.request p _ _ => some p
  | _ => none

/-- The peer a `cancel` call was made on. -/
def Event.cancelledPeer : Event → Option Nat
  | Event.cancel p _ => some p
  | _ => none

/-- Number of `request` calls made on the peer `q` in a run of events. -/
def requestsTo (q : Nat) (events : List Event) : Nat :=
  events.countP fun e => decide (e.requestedPeer = some q)

/-- Number of `cancel` calls made on the peer `q` in a run of events. -/
def cancelsTo (q : Nat) (events : List Event) : Nat :=
  events.countP fun e => decide (e.cancelledPeer = some q)

/-- Number of `request` calls, on any peer, in a run of events. -/
def requestCalls (events : List Event) : Nat :=
  events.countP fun e => e.requestedPeer.isSome

/-- A state with idle peers, empty maps and no call made, for the examples. -/
def idleState : State :=
  { peer := fun _ => idlePeer, allPeers := fun _ => [], storageLeft := fun _ => none,
    contributed := [], log := [] }

/-- The first chunk of a piece, for the examples. -/
def chunk0 : ChunkSpec := { Begin := 0, Length := 16384 }

/-- The second chunk of a piece, for the examples. -/
def chunk1 : ChunkSpec := { Begin := 16384, Length := 16384 }

/-- The peers standing at the contributing positions of a ranked list. -/
def contributors (peers : List Nat) (contributed : List Nat) : List Nat :=
  contributed.filterMap fun i => peers[i]?

/-- Every contributing peer of `cs` stands strictly after every other peer in `r`. -/
def contributorsLast (r : List Nat) (cs : List Nat) : Prop :=
  ∀ a ∈ cs, ∀ b ∈ r, b ∉ cs → r.indexOf b < r.indexOf a

instance contributorsLast.decidable (r cs : List Nat) : Decidable (contributorsLast r cs) := by
  unfold contributorsLast
  infer_instance

/-- The peers of `l` that are not among `cs`, in the order of `l`. -/
def withoutPeers (cs : List Nat) (l : List Nat) : List Nat :=
  l.filter fun p => !cs.contains p

/-- The peers of `l` that are among `cs`, in the order of `l`. -/
def onlyPeers (cs : List Nat) (l : List Nat) : List Nat :=
  l.filter fun p => cs.contains p

/-- A piece of two chunks, both undirtied, for the examples. -/
def twoChunkPiece : Piece :=
  { length := 32768, ignorePieceForRequests := false, undirtied := [chunk0, chunk1],
    uncachedPriority := 1, piecePartiallyDownloaded := false, pieceAvailability := 1 }

/-- A client with one torrent of one piece and the peers 10, 20, 30, of which 20
is choking; no storage capacity is configured. -/
def threePeerClient : Client :=
  { torrents := [0]
    torrent := fun _ =>
      { haveInfo := true, numPieces := 1, Capacity := none, peers := [10, 20, 30],
        piece := fun _ => twoChunkPiece }
    capacity := fun _ => none
    peer := fun p => if p = 20 then { idlePeer with peerChoking := true } else idlePeer }

/-- Bytes reserved in a run of events for pieces of torrents whose storage capacity
identity is `c`. -/
def reservedFor (cl : Client) (c : Nat) : List Event → Int
  | [] => 0
  | Event.reserve t _ length :: rest =>
    (if (cl.torrent t).Capacity = some c then (length : Int) else 0) + reservedFor cl c rest
  | _ :: rest => reservedFor cl c rest

/-- The peers the last loop of `doRequests` visits, in order. -/
def visitedPeers (cl : Client) : List Nat :=
  cl.torrents.flatMap fun t => (cl.torrent t).peers

/-- The condition of the interest turn-off on a peer. -/
def idleCondition (p : Peer) : Bool :=
  !p.peerChoking && p.numLocalRequests == 0 && !p.writeBufferFull

/-- A client with one torrent of two pieces sharing the capacity identity 7, queried
at 32767 bytes: piece 0 (priority 2) is 32768 bytes long, piece 1 (priority 1) is
16384 bytes long. One peer, 10. -/
def tightBudgetClient : Client :=
  { torrents := [0]
    torrent := fun _ =>
      { haveInfo := true, numPieces := 2, Capacity := some 7, peers := [10],
        piece := fun i =>
          if i = 0 then { twoChunkPiece with uncachedPriority := 2 }
          else { twoChunkPiece with length := 16384, undirtied := [chunk0] } }
    capacity := fun _ => some 32767
    peer := fun _ => idlePeer }

/-- The event is a call of `setInterested`. -/
def Event.isInterest : Event → Bool
  | Event.setInterested _ _ => true
  | _ => false

/-- The record `addPieces` appends for the piece `index` of the torrent `t`. -/
def freshRecord (t index : Nat) : pieceRequestOrderPiece :=
  { t := t, index := index, prio := 0, partialFlag := false, availability := 0 }

/-- Number of records of a request order for the piece `index` of the torrent `t`. -/
def recordsOf (t index : Nat) (pieces : List pieceRequestOrderPiece) : Nat :=
  pieces.countP fun p => p.t == t && p.index == index

/-- A client with one torrent without info and one peer, 10, which is closed, not
choking, without outstanding request and with room in its write buffer. -/
def closedPeerClient : Client :=
  { torrents := [0]
    torrent := fun _ =>
      { haveInfo := false, numPieces := 0, Capacity := none, peers := [10],
        piece := fun _ => twoChunkPiece }
    capacity := fun _ => none
    peer := fun _ => { idlePeer with closed := true } }

/-- A client with one torrent of two pieces sharing the capacity identity 7, queried
at 40000 bytes: piece 0 (priority 2, 32768 bytes) is flagged to be ignored for
requests, piece 1 (priority 1) is 16384 bytes long. One peer, 10. -/
def ignoringClient : Client :=
  { torrents := [0]
    torrent := fun _ =>
      { haveInfo := true, numPieces := 2, Capacity := some 7, peers := [10],
        piece := fun i =>
          if i = 0 then
            { twoChunkPiece with uncachedPriority := 2, ignorePieceForRequests := true }
          else { twoChunkPiece with length := 16384, undirtied := [chunk0] } }
    capacity := fun _ => some 40000
    peer := fun _ => idlePeer }

/-- Number of calls of the capacity function `c` in a run of events. -/
def capacityCalls (c : Nat) (events : List Event) : Nat :=
  events.countP fun e => decide (e = Event.capacity c)

/-- A torrent of the client with its info loaded has the capacity identity `c`. -/
def identityInUse (cl : Client) (c : Nat) : Prop :=
  ∃ t ∈ cl.torrents, (cl.torrent t).haveInfo = true ∧ (cl.torrent t).Capacity = some c

/-- A client with two torrents sharing the capacity identity 7, queried at 40000
bytes, each with the two pieces and the peers of the three-peer client. -/
def sharedBudgetClient : Client :=
  { torrents := [0, 1]
    torrent := fun t =>
      { haveInfo := true, numPieces := 2, Capacity := some 7,
        peers := if t = 0 then [10] else [20],
        piece := fun _ => { twoChunkPiece with length := 16384, undirtied := [chunk0] } }
    capacity := fun _ => some 40000
    peer := fun _ => idlePeer }

/-- The peers of the torrent `t` whose closed flag is not set, in `iterPeers` order. -/
def livePeers (cl : Client) (t : Nat) : List Nat :=
  (cl.torrent t).peers.filter fun p => !(cl.peer p).closed

/-- The ranking of two peers, `a` standing before `b`: the rate of `a` is at least
that of `b` (`rate b <= rate a`), and on equal rates (`rate a == rate b`) the pointer
of `a` is at least that of `b`. -/
def rankedBefore (peer : Nat → Peer) (a b : Nat) : Prop :=
  (peer b).downloadRate.le (peer a).downloadRate = true ∧
  ((peer a).downloadRate.eq (peer b).downloadRate = true → b ≤ a)

instance rankedBefore.decidable (peer : Nat → Peer) (a b : Nat) :
    Decidable (rankedBefore peer a b) := by
  unfold rankedBefore
  infer_instance

/-- A client with one torrent and the peers 10, 20, 30, 40: peer 20 is the fastest,
10 and 40 have the same rate, 30 is closed. -/
def rankedClient : Client :=
  { torrents := [0]
    torrent := fun _ =>
      { haveInfo := true, numPieces := 1, Capacity := none, peers := [10, 20, 30, 40],
        piece := fun _ => twoChunkPiece }
    capacity := fun _ => none
    peer := fun p =>
      if p = 20 then { idlePeer with downloadRate := float64.num 9 }
      else if p = 30 then { idlePeer with downloadRate := float64.num 5, closed := true }
      else { idlePeer with downloadRate := float64.num 2 } }

/-- A client with one torrent whose `iterPeers` yields `peers`; peer 10 has rate 5,
peer 20 has rate NaN, every other peer has rate 7; no peer is closed. -/
def nanRateClient (peers : List Nat) : Client :=
  { torrents := [0]
    torrent := fun _ =>
      { haveInfo := true, numPieces := 1, Capacity := none, peers := peers,
        piece := fun _ => twoChunkPiece }
    capacity := fun _ => none
    peer := fun p =>
      if p = 10 then { idlePeer with downloadRate := float64.num 5 }
      else if p = 20 then { idlePeer with downloadRate := float64.NaN }
      else { idlePeer with downloadRate := float64.num 7 } }

/-- The float is a number, not NaN. -/
def float64.isNumber : float64 → Bool
  | float64.num _ => true
  | float64.NaN => false

/-! # Theorems -/

/-! ## The comparator -/

/-- The comparator decides exactly the lexicographic order. -/
theorem less_eq_true_iff (i j : pieceRequestOrderPiece) :
    less i j = true ↔ lexLess i j := by
  unfold less lexLess multiless.Computation.Less multiless.Computation.Int
    multiless.Computation.Bool multiless.Computation.EagerSameLess multiless.New
  rcases lt_trichotomy i.prio j.prio with h | h | h
  · have h1 : ¬ j.prio = i.prio := by omega
    have h2 : ¬ j.prio < i.prio := by omega
    have h3 : ¬ i.prio = j.prio := by omega
    simp [h1, h2, h3]
  · cases hi : i.partialFlag <;> cases hj : j.partialFlag <;>
      rcases lt_trichotomy i.availability j.availability with g | g | g <;>
      first
        | (have g1 : ¬ i.availability = j.availability := by omega
           have g2 : ¬ i.availability < j.availability := by omega
           simp [h, g1, g2, hi, hj])
        | (have g1 : ¬ i.availability = j.availability := by omega
           simp [h, g, g1, hi, hj])
        | simp [h, g, hi, hj]
  · have h1 : ¬ j.prio = i.prio := by omega
    simp [h1, h]

/-- The comparator says "not less" exactly when the second record is in order
before or level with the first. -/
theorem less_eq_false_iff (a b : pieceRequestOrderPiece) :
    less b a = false ↔ inOrder a b := by
  rw [← Bool.not_eq_true, less_eq_true_iff]
  unfold lexLess inOrder
  cases ha : a.partialFlag <;> cases hb : b.partialFlag <;> simp <;> omega

/-! ## The insertion sort -/

section sorting

variable {α : Type} (lt : α → α → Bool)

theorem sink_perm (x : α) (l : List α) : (sink lt x l).Perm (x :: l) := by
  induction l with
  | nil => simp [sink]
  | cons y rest ih =>
    unfold sink
    split
    · exact (ih.cons y).trans (List.Perm.swap x y rest)
    · exact List.Perm.refl _

theorem foldl_sink_perm (l acc : List α) :
    (l.foldl (fun rev x => sink lt x rev) acc).Perm (l.reverse ++ acc) := by
  induction l generalizing acc with
  | nil => simp
  | cons x xs ih =>
    simp only [List.foldl_cons, List.reverse_cons, List.append_assoc, List.singleton_append]
    exact (ih _).trans ((sink_perm lt x acc).append_left _)

theorem SliceStable_perm (l : List α) : (SliceStable lt l).Perm l := by
  unfold SliceStable
  have h := foldl_sink_perm lt l []
  simp only [List.append_nil] at h
  exact (List.reverse_perm _).trans (h.trans (List.reverse_perm l))

theorem sink_sorted (hasym : ∀ a b, lt a b = true → lt b a = false)
    (hneg : ∀ a b c, lt a b = false → lt b c = false → lt a c = false)
    (x : α) (l : List α) (h : l.Pairwise fun u v => lt u v = false) :
    (sink lt x l).Pairwise fun u v => lt u v = false := by
  induction l with
  | nil => simp [sink]
  | cons y rest ih =>
    rw [List.pairwise_cons] at h
    unfold sink
    split
    · rename_i hxy
      rw [List.pairwise_cons]
      refine ⟨fun z hz => ?_, ih h.2⟩
      rcases List.mem_cons.1 ((sink_perm lt x rest).mem_iff.1 hz) with rfl | hz
      · exact hasym _ _ hxy
      · exact h.1 z hz
    · rename_i hxy
      have hxy : lt x y = false := by simpa using hxy
      rw [List.pairwise_cons]
      refine ⟨fun z hz => ?_, List.pairwise_cons.2 h⟩
      rcases List.mem_cons.1 hz with rfl | hz
      · exact hxy
      · exact hneg _ _ _ hxy (h.1 z hz)

theorem foldl_sink_sorted (hasym : ∀ a b, lt a b = true → lt b a = false)
    (hneg : ∀ a b c, lt a b = false → lt b c = false → lt a c = false)
    (l acc : List α) (h : acc.Pairwise fun u v => lt u v = false) :
    (l.foldl (fun rev x => sink lt x rev) acc).Pairwise fun u v => lt u v = false := by
  induction l generalizing acc with
  | nil => simpa using h
  | cons x xs ih => exact ih _ (sink_sorted lt hasym hneg x acc h)

theorem SliceStable_sorted (hasym : ∀ a b, lt a b = true → lt b a = false)
    (hneg : ∀ a b c, lt a b = false → lt b c = false → lt a c = false) (l : List α) :
    (SliceStable lt l).Pairwise fun a b => lt b a = false := by
  unfold SliceStable
  rw [List.pairwise_reverse]
  exact foldl_sink_sorted lt hasym hneg l [] List.Pairwise.nil

theorem sink_filter (q : α → Bool)
    (hq : ∀ a b, q a = true → q b = true → lt a b = false) (x : α) (l : List α) :
    (sink lt x l).filter q = (x :: l).filter q := by
  induction l with
  | nil => simp [sink]
  | cons y rest ih =>
    unfold sink
    split
    · rename_i hxy
      rw [List.filter_cons, ih]
      cases hx : q x <;> cases hy : q y <;> simp [List.filter_cons, hx, hy]
      rw [hq x y hx hy] at hxy
      exact absurd hxy (by simp)
    · rfl

theorem foldl_sink_filter (q : α → Bool)
    (hq : ∀ a b, q a = true → q b = true → lt a b = false) (l acc : List α) :
    (l.foldl (fun rev x => sink lt x rev) acc).filter q = (l.reverse ++ acc).filter q := by
  induction l generalizing acc with
  | nil => simp
  | cons x xs ih =>
    simp only [List.foldl_cons, List.reverse_cons, List.append_assoc, List.singleton_append]
    rw [ih, List.filter_append, List.filter_append, sink_filter lt q hq]

theorem SliceStable_filter (q : α → Bool)
    (hq : ∀ a b, q a = true → q b = true → lt a b = false) (l : List α) :
    (SliceStable lt l).filter q = l.filter q := by
  unfold SliceStable
  rw [← List.reverse_reverse (List.filter q l), List.filter_reverse, foldl_sink_filter lt q hq,
    List.append_nil, List.filter_reverse]

theorem foldl_sink_of_sorted (l acc : List α)
    (h : (acc.reverse ++ l).Pairwise fun a b => lt b a = false) :
    l.foldl (fun rev x => sink lt x rev) acc = l.reverse ++ acc := by
  induction l generalizing acc with
  | nil => simp
  | cons x xs ih =>
    have hx : sink lt x acc = x :: acc := by
      cases acc with
      | nil => rfl
      | cons y rest =>
        have hy : lt x y = false := by
          rw [List.pairwise_append] at h
          exact h.2.2 y (by simp) x (by simp)
        simp [sink, hy]
    simp only [List.foldl_cons, hx]
    rw [ih (x :: acc) (by simpa using h)]
    simp

theorem SliceStable_of_sorted (l : List α) (h : l.Pairwise fun a b => lt b a = false) :
    SliceStable lt l = l := by
  unfold SliceStable
  rw [foldl_sink_of_sorted lt l [] (by simpa using h)]
  simp

end sorting

/-! ## The sorted request order -/

theorem less_asymm (a b : pieceRequestOrderPiece) (h : less a b = true) : less b a = false := by
  rw [less_eq_true_iff] at h
  rw [← Bool.not_eq_true, less_eq_true_iff]
  unfold lexLess at *
  cases ha : a.partialFlag <;> cases hb : b.partialFlag <;> simp [ha, hb] at h ⊢ <;> omega

theorem less_neg_trans (a b c : pieceRequestOrderPiece) (hab : less a b = false)
    (hbc : less b c = false) : less a c = false := by
  rw [less_eq_false_iff] at *
  unfold inOrder at *
  refine ⟨by omega, fun h => ?_, fun h g => ?_⟩
  · have h1 : b.prio = a.prio := by omega
    have h2 : c.prio = b.prio := by omega
    have := hab.2.1 h1
    have := hbc.2.1 h2
    cases ha : a.partialFlag <;> cases hb : b.partialFlag <;> cases hc : c.partialFlag <;>
      simp_all
  · have h1 : b.prio = a.prio := by omega
    have h2 : c.prio = b.prio := by omega
    have := hab.2.1 h1
    have := hbc.2.1 h2
    have := hab.2.2 h1
    have := hbc.2.2 h2
    cases ha : a.partialFlag <;> cases hb : b.partialFlag <;> cases hc : c.partialFlag <;>
      simp_all <;> omega

theorem sort_pairwise_inOrder (pieces : List pieceRequestOrderPiece) :
    (sort pieces).Pairwise inOrder := by
  have h := SliceStable_sorted less less_asymm less_neg_trans pieces
  exact h.imp fun {a b} hab => (less_eq_false_iff a b).1 hab

/-- C1: after `sort`, any two positions `i < j` of the request order hold records
ordered by the three-level key (priority of `i` at least that of `j`; on equal
priority `i` is partial or `j` is not; on equal priority and partial flag the
availability of `i` is at most that of `j`); and the three records of the
example, inserted in any order, come out as download 2 (priority 20), then the
partial piece of download 1, then its non-partial piece. -/
theorem sort_three_level_order :
    (∀ (pieces : List pieceRequestOrderPiece) (i j : Nat)
        (hi : i < (sort pieces).length) (hj : j < (sort pieces).length), i < j →
        inOrder ((sort pieces)[i]) ((sort pieces)[j])) ∧
    (∀ l : List pieceRequestOrderPiece, l.Perm [d1Plain, d1Partial, d2Piece] →
        sort l = [d2Piece, d1Partial, d1Plain]) := by
  refine ⟨fun pieces i j hi hj hij => ?_, fun l hl => ?_⟩
  · exact List.pairwise_iff_getElem.1 (sort_pairwise_inOrder pieces) i j hi hj hij
  · have hlen : l.length = 3 := by simpa using hl.length_eq
    obtain ⟨x, y, z, rfl⟩ := List.length_eq_three.1 hlen
    have hnd : [x, y, z].Nodup := hl.nodup_iff.2 (by decide)
    have hx : x ∈ [d1Plain, d1Partial, d2Piece] := hl.mem_iff.1 (by simp)
    have hy : y ∈ [d1Plain, d1Partial, d2Piece] := hl.mem_iff.1 (by simp)
    have hz : z ∈ [d1Plain, d1Partial, d2Piece] := hl.mem_iff.1 (by simp)
    simp only [List.mem_cons, List.mem_singleton, List.not_mem_nil, or_false] at hx hy hz
    rcases hx with rfl | rfl | rfl <;> rcases hy with rfl | rfl | rfl <;>
      rcases hz with rfl | rfl | rfl <;>
      first
        | decide
        | exact absurd hnd (by decide)

/-- Witness of C1: the example inserted as download 1 first, download 2 last. -/
theorem sort_three_level_order_witness :
    sort [d1Plain, d1Partial, d2Piece] = [d2Piece, d1Partial, d1Plain] ∧
    inOrder d2Piece d1Partial :=
  ⟨sort_three_level_order.2 _ (List.Perm.refl _),
    sort_three_level_order.1 [d1Plain, d1Partial, d2Piece] 0 1 (by decide) (by decide)
      (by decide)⟩

theorem less_irrefl (a : pieceRequestOrderPiece) : less a a = false := by
  rw [less_eq_false_iff]
  unfold inOrder
  cases a.partialFlag <;> simp

theorem less_trans (a b c : pieceRequestOrderPiece) (hab : less a b = true)
    (hbc : less b c = true) : less a c = true := by
  rw [less_eq_true_iff] at *
  unfold lexLess at *
  cases ha : a.partialFlag <;> cases hb : b.partialFlag <;> cases hc : c.partialFlag <;>
    simp [ha, hb, hc] at hab hbc ⊢ <;> omega

theorem incomparable_iff (a b : pieceRequestOrderPiece) :
    (less a b = false ∧ less b a = false) ↔ sortKey a = sortKey b := by
  rw [less_eq_false_iff, less_eq_false_iff]
  unfold inOrder sortKey
  rw [Prod.mk.injEq, Prod.mk.injEq]
  cases ha : a.partialFlag <;> cases hb : b.partialFlag <;> simp <;> omega

/-- C9: `sort` returns a permutation of its input; the records of each key
(priority, partial, availability) keep their relative order, so that two records
of equal key that stand one before the other still do after the sort; sorting a
sorted sequence changes nothing, in particular sorting twice is sorting once. -/
theorem sort_stable_permutation :
    (∀ pieces : List pieceRequestOrderPiece, (sort pieces).Perm pieces) ∧
    (∀ (pieces : List pieceRequestOrderPiece) (k : Int × Bool × Int),
        (sort pieces).filter (fun p => decide (sortKey p = k)) =
          pieces.filter (fun p => decide (sortKey p = k))) ∧
    (∀ (pieces : List pieceRequestOrderPiece) (a b : pieceRequestOrderPiece),
        sortKey a = sortKey b → List.Sublist [a, b] pieces →
        List.Sublist [a, b] (sort pieces)) ∧
    (∀ pieces : List pieceRequestOrderPiece, pieces.Pairwise inOrder → sort pieces = pieces) ∧
    (∀ pieces : List pieceRequestOrderPiece, sort (sort pieces) = sort pieces) := by
  have hstable : ∀ (pieces : List pieceRequestOrderPiece) (k : Int × Bool × Int),
      (sort pieces).filter (fun p => decide (sortKey p = k)) =
        pieces.filter (fun p => decide (sortKey p = k)) := by
    intro pieces k
    refine SliceStable_filter less _ (fun a b ha hb => ?_) pieces
    have hab : sortKey a = sortKey b := by
      rw [decide_eq_true_eq] at ha hb
      rw [ha, hb]
    exact ((incomparable_iff a b).2 hab).1
  have hsorted : ∀ pieces : List pieceRequestOrderPiece, pieces.Pairwise inOrder →
      sort pieces = pieces := fun pieces h =>
    SliceStable_of_sorted less pieces (h.imp fun {a b} hab => (less_eq_false_iff a b).2 hab)
  refine ⟨fun pieces => SliceStable_perm less pieces, hstable, ?_, hsorted,
    fun pieces => hsorted _ (sort_pairwise_inOrder pieces)⟩
  intro pieces a b hab hsub
  have h1 := hsub.filter (fun p => decide (sortKey p = sortKey b))
  rw [← hstable pieces (sortKey b)] at h1
  have h2 : List.filter (fun p => decide (sortKey p = sortKey b)) [a, b] = [a, b] := by
    simp [List.filter_cons, hab]
  rw [h2] at h1
  exact h1.trans (List.filter_sublist _)

/-- Witness of C9: two records of equal key keep their order, and the sorted
example is left unchanged by a second sort. -/
theorem sort_stable_permutation_witness :
    List.Sublist [d1Plain, { d1Plain with index := 7 }]
      (sort [d1Plain, d2Piece, { d1Plain with index := 7 }]) ∧
    sort [d2Piece, d1Partial, d1Plain] = [d2Piece, d1Partial, d1Plain] :=
  ⟨sort_stable_permutation.2.2.1 [d1Plain, d2Piece, { d1Plain with index := 7 }]
      d1Plain { d1Plain with index := 7 } (by decide) (by decide),
    sort_stable_permutation.2.2.2.1 [d2Piece, d1Partial, d1Plain] (by decide)⟩

/-- C10: the comparator `less` is a strict weak ordering: irreflexive, asymmetric,
transitive; two records are incomparable exactly when they agree on priority,
partial flag and availability, and incomparability is transitive; and `less` is
the lexicographic order (priority descending, partial before non-partial,
availability ascending). -/
theorem less_strict_weak_order :
    (∀ a : pieceRequestOrderPiece, less a a = false) ∧
    (∀ a b : pieceRequestOrderPiece, less a b = true → less b a = false) ∧
    (∀ a b c : pieceRequestOrderPiece, less a b = true → less b c = true →
        less a c = true) ∧
    (∀ a b : pieceRequestOrderPiece,
        (less a b = false ∧ less b a = false) ↔ sortKey a = sortKey b) ∧
    (∀ a b c : pieceRequestOrderPiece, (less a b = false ∧ less b a = false) →
        (less b c = false ∧ less c b = false) → (less a c = false ∧ less c a = false)) ∧
    (∀ a b : pieceRequestOrderPiece, less a b = true ↔ lexLess a b) := by
  refine ⟨less_irrefl, less_asymm, less_trans, incomparable_iff, ?_, less_eq_true_iff⟩
  intro a b c hab hbc
  rw [incomparable_iff] at *
  rw [hab, hbc]

/-- Witness of C10: download 2 before the partial piece before the plain piece. -/
theorem less_strict_weak_order_witness :
    less d2Piece d1Plain = true ∧ less d1Partial d2Piece = false :=
  ⟨less_strict_weak_order.2.2.1 d2Piece d1Partial d1Plain (by decide) (by decide),
    less_strict_weak_order.2.1 d2Piece d1Partial (by decide)⟩

/-! ## The walk over the ranked peers for one chunk -/

theorem walkPeers_frame (ops : PeerOps) (req : Request) (peers : List Nat) (i : Nat)
    (b : Bool) (s : State) :
    (walkPeers ops req peers i b s).allPeers = s.allPeers ∧
    (walkPeers ops req peers i b s).storageLeft = s.storageLeft := by
  induction peers generalizing i b s with
  | nil => exact ⟨rfl, rfl⟩
  | cons p rest ih =>
    unfold walkPeers
    split
    · exact ih _ _ _
    · exact ih _ _ _

theorem walkPeers_cancelling (ops : PeerOps) (req : Request) (peers : List Nat) (i : Nat)
    (s : State) :
    (walkPeers ops req peers i true s).log = s.log ++ peers.map (fun p => Event.cancel p req) ∧
    (walkPeers ops req peers i true s).contributed = s.contributed := by
  induction peers generalizing i s with
  | nil => simp [walkPeers]
  | cons p rest ih =>
    unfold walkPeers
    simp only [if_true]
    obtain ⟨h1, h2⟩ := ih (i + 1)
      { s with
        peer := Function.update s.peer p (ops.cancel p (s.peer p) req)
        log := s.log ++ [Event.cancel p req] }
    exact ⟨by rw [h1]; simp, h2⟩

theorem walkPeers_first_acceptor (ops : PeerOps) (req : Request) (pre : List Nat)
    (pm : Nat) (post : List Nat) (i : Nat) (s : State)
    (hnd : (pre ++ pm :: post).Nodup)
    (hpre : ∀ p ∈ pre, (ops.request p (s.peer p) req).2 = false)
    (hpm : (ops.request pm (s.peer pm) req).2 = true) :
    (walkPeers ops req (pre ++ pm :: post) i false s).log =
      s.log ++ (pre.map (fun p => Event.request p req false) ++
        Event.request pm req true :: post.map (fun p => Event.cancel p req)) ∧
    (walkPeers ops req (pre ++ pm :: post) i false s).contributed =
      insertContributed s.contributed (i + pre.length) := by
  induction pre generalizing i s with
  | nil =>
    simp only [List.nil_append, List.map_nil, List.length_nil, Nat.add_zero]
    unfold walkPeers
    simp only [Bool.false_eq_true, if_false, hpm, if_true]
    obtain ⟨h1, h2⟩ := walkPeers_cancelling ops req post (i + 1)
      { s with
        peer := Function.update s.peer pm (ops.request pm (s.peer pm) req).1
        log := s.log ++ [Event.request pm req true]
        contributed := insertContributed s.contributed i }
    exact ⟨by rw [h1]; simp, h2⟩
  | cons p pre ih =>
    have hp := hpre p (List.mem_cons_self _ _)
    simp only [List.cons_append] at hnd ⊢
    rw [List.nodup_cons] at hnd
    unfold walkPeers
    simp only [Bool.false_eq_true, if_false, hp]
    have hne : ∀ q ∈ pre ++ pm :: post, q ≠ p := fun q hq hqp => hnd.1 (hqp ▸ hq)
    obtain ⟨h1, h2⟩ := ih (i + 1)
      { s with
        peer := Function.update s.peer p (ops.request p (s.peer p) req).1
        log := s.log ++ [Event.request p req false]
        contributed := s.contributed } hnd.2
      (fun q hq => by
        have hqp : q ≠ p := hne q (List.mem_append_left _ hq)
        simpa [Function.update_noteq hqp] using hpre q (List.mem_cons_of_mem _ hq))
      (by
        have hqp : pm ≠ p := hne pm (by simp)
        simpa [Function.update_noteq hqp] using hpm)
    refine ⟨by rw [h1]; simp, ?_⟩
    rw [h2]
    simp only [List.length_cons]
    congr 1
    omega

theorem requestsTo_append (q : Nat) (l1 l2 : List Event) :
    requestsTo q (l1 ++ l2) = requestsTo q l1 + requestsTo q l2 := by
  simp [requestsTo, List.countP_append]

theorem cancelsTo_append (q : Nat) (l1 l2 : List Event) :
    cancelsTo q (l1 ++ l2) = cancelsTo q l1 + cancelsTo q l2 := by
  simp [cancelsTo, List.countP_append]

theorem requestCalls_append (l1 l2 : List Event) :
    requestCalls (l1 ++ l2) = requestCalls l1 + requestCalls l2 := by
  simp [requestCalls, List.countP_append]

theorem requestsTo_map_request (q : Nat) (req : Request) (ok : Bool) (l : List Nat) :
    requestsTo q (l.map fun p => Event.request p req ok) = l.count q := by
  induction l with
  | nil => rfl
  | cons p l ih =>
    simp only [requestsTo, List.map_cons, List.countP_cons, List.count_cons] at ih ⊢
    rw [ih]
    by_cases h : p = q <;> simp [Event.requestedPeer, h]

theorem cancelsTo_map_request (q : Nat) (req : Request) (ok : Bool) (l : List Nat) :
    cancelsTo q (l.map fun p => Event.request p req ok) = 0 := by
  induction l with
  | nil => rfl
  | cons p l ih =>
    simp only [cancelsTo, List.map_cons, List.countP_cons] at ih ⊢
    rw [ih]
    simp [Event.cancelledPeer]

theorem cancelsTo_map_cancel (q : Nat) (req : Request) (l : List Nat) :
    cancelsTo q (l.map fun p => Event.cancel p req) = l.count q := by
  induction l with
  | nil => rfl
  | cons p l ih =>
    simp only [cancelsTo, List.map_cons, List.countP_cons, List.count_cons] at ih ⊢
    rw [ih]
    by_cases h : p = q <;> simp [Event.cancelledPeer, h]

theorem requestsTo_map_cancel (q : Nat) (req : Request) (l : List Nat) :
    requestsTo q (l.map fun p => Event.cancel p req) = 0 := by
  induction l with
  | nil => rfl
  | cons p l ih =>
    simp only [requestsTo, List.map_cons, List.countP_cons] at ih ⊢
    rw [ih]
    simp [Event.requestedPeer]

theorem requestCalls_map_cancel (req : Request) (l : List Nat) :
    requestCalls (l.map fun p => Event.cancel p req) = 0 := by
  induction l with
  | nil => rfl
  | cons p l ih =>
    simp only [requestCalls, List.map_cons, List.countP_cons] at ih ⊢
    rw [ih]
    simp [Event.requestedPeer]

theorem chunkLoop_first_accepts (ops : PeerOps) (index : Nat) (p1 : Nat) (rest : List Nat)
    (hnd : (p1 :: rest).Nodup) (hacc : ∀ st r, (ops.request p1 st r).2 = true)
    (chunks : List ChunkSpec) (s : State) :
    (chunks.foldl (requestChunk ops index (p1 :: rest)) s).log =
      s.log ++ chunks.flatMap fun c =>
        Event.request p1 { Index := index, chunk := c } true ::
          rest.map fun p => Event.cancel p { Index := index, chunk := c } := by
  induction chunks generalizing s with
  | nil => simp
  | cons c chunks ih =>
    simp only [List.foldl_cons, List.flatMap_cons]
    rw [ih]
    have h := (walkPeers_first_acceptor ops { Index := index, chunk := c } [] p1 rest 0 s
      (by simpa using hnd) (by simp) (hacc _ _)).1
    simp only [List.nil_append, List.map_nil] at h
    unfold requestChunk
    rw [h, List.append_assoc]

theorem counts_first_accepts (index : Nat) (p1 : Nat) (rest : List Nat)
    (hnd : (p1 :: rest).Nodup) (chunks : List ChunkSpec) :
    requestCalls (chunks.flatMap fun c =>
        Event.request p1 { Index := index, chunk := c } true ::
          rest.map fun p => Event.cancel p { Index := index, chunk := c }) = chunks.length ∧
    requestsTo p1 (chunks.flatMap fun c =>
        Event.request p1 { Index := index, chunk := c } true ::
          rest.map fun p => Event.cancel p { Index := index, chunk := c }) = chunks.length ∧
    cancelsTo p1 (chunks.flatMap fun c =>
        Event.request p1 { Index := index, chunk := c } true ::
          rest.map fun p => Event.cancel p { Index := index, chunk := c }) = 0 ∧
    ∀ q ∈ rest,
      requestsTo q (chunks.flatMap fun c =>
        Event.request p1 { Index := index, chunk := c } true ::
          rest.map fun p => Event.cancel p { Index := index, chunk := c }) = 0 ∧
      cancelsTo q (chunks.flatMap fun c =>
        Event.request p1 { Index := index, chunk := c } true ::
          rest.map fun p => Event.cancel p { Index := index, chunk := c }) = chunks.length := by
  rw [List.nodup_cons] at hnd
  induction chunks with
  | nil => simp [requestCalls, requestsTo, cancelsTo]
  | cons c chunks ih =>
    obtain ⟨h1, h2, h3, h4⟩ := ih
    simp only [List.flatMap_cons, List.cons_append, List.length_cons]
    have e1 : ∀ (x : Event) (l : List Event), x :: l = [x] ++ l := fun _ _ => rfl
    refine ⟨?_, ?_, ?_, fun q hq => ⟨?_, ?_⟩⟩
    · rw [e1, requestCalls_append, requestCalls_append, requestCalls_map_cancel, h1]
      simp [requestCalls, Event.requestedPeer]; omega
    · rw [e1, requestsTo_append, requestsTo_append, requestsTo_map_cancel, h2]
      simp [requestsTo, Event.requestedPeer]; omega
    · rw [e1, cancelsTo_append, cancelsTo_append, cancelsTo_map_cancel, h3,
        List.count_eq_zero_of_not_mem hnd.1]
      simp [cancelsTo, Event.cancelledPeer]
    · have hq1 : ¬ p1 = q := fun h => hnd.1 (h ▸ hq)
      rw [e1, requestsTo_append, requestsTo_append, requestsTo_map_cancel, (h4 q hq).1]
      simp [requestsTo, Event.requestedPeer, hq1]
    · rw [e1, cancelsTo_append, cancelsTo_append, cancelsTo_map_cancel, (h4 q hq).2,
        List.count_eq_one_of_mem hnd.2 hq]
      simp [cancelsTo, Event.cancelledPeer]; omega

theorem counts_first_acceptor (req : Request) (pre : List Nat) (pm : Nat) (post : List Nat)
    (hnd : (pre ++ pm :: post).Nodup) (q : Nat) :
    requestsTo q (pre.map (fun p => Event.request p req false) ++
        Event.request pm req true :: post.map (fun p => Event.cancel p req)) =
      (if q ∈ pre ∨ q = pm then 1 else 0) ∧
    cancelsTo q (pre.map (fun p => Event.request p req false) ++
        Event.request pm req true :: post.map (fun p => Event.cancel p req)) =
      (if q ∈ post then 1 else 0) := by
  have e1 : ∀ (x : Event) (l : List Event), x :: l = [x] ++ l := fun _ _ => rfl
  rw [List.nodup_append] at hnd
  obtain ⟨hpre, hrest, hdisj⟩ := hnd
  rw [List.nodup_cons] at hrest
  have hpm : pm ∉ pre := fun h => hdisj h (List.mem_cons_self _ _)
  constructor
  · rw [requestsTo_append, e1, requestsTo_append, requestsTo_map_request,
      requestsTo_map_cancel]
    by_cases h1 : q ∈ pre
    · have h2 : ¬ pm = q := fun h => hpm (h ▸ h1)
      rw [List.count_eq_one_of_mem hpre h1]
      simp [requestsTo, Event.requestedPeer, h1, h2]
    · rw [List.count_eq_zero_of_not_mem h1]
      by_cases h2 : q = pm
      · simp [requestsTo, Event.requestedPeer, h2]
      · have h3 : ¬ pm = q := fun h => h2 h.symm
        simp [requestsTo, Event.requestedPeer, h1, h2, h3]
  · rw [cancelsTo_append, e1, cancelsTo_append, cancelsTo_map_request, cancelsTo_map_cancel]
    by_cases h1 : q ∈ post
    · rw [List.count_eq_one_of_mem hrest.2 h1]
      simp [cancelsTo, Event.cancelledPeer, h1]
    · rw [List.count_eq_zero_of_not_mem h1]
      simp [cancelsTo, Event.cancelledPeer, h1]

/-- C2: in the walk over a ranked list of distinct peers for one chunk, when `pm`
is the first peer whose `request` returns no error, the calls made are: one failed
`request` on each peer before `pm`, one accepted `request` on `pm`, one `cancel` on
each peer after `pm`, in list order, and nothing else (so each earlier peer gets one
request and no cancel, `pm` one request and no cancel, each later peer one cancel and
no request). When the first peer accepts every request, the chunk loop of a piece
with `N` undirtied chunks makes exactly `N` request calls, all on the first peer,
and `N` cancel calls on each other peer. -/
theorem chunk_dispatch_first_acceptor :
    (∀ (ops : PeerOps) (index : Nat) (chunk : ChunkSpec) (pre : List Nat) (pm : Nat)
        (post : List Nat) (s : State),
        (pre ++ pm :: post).Nodup →
        (∀ p ∈ pre, (ops.request p (s.peer p) { Index := index, chunk := chunk }).2 = false) →
        (ops.request pm (s.peer pm) { Index := index, chunk := chunk }).2 = true →
        (requestChunk ops index (pre ++ pm :: post) s chunk).log =
          s.log ++ (pre.map (fun p => Event.request p { Index := index, chunk := chunk } false) ++
            Event.request pm { Index := index, chunk := chunk } true ::
              post.map (fun p => Event.cancel p { Index := index, chunk := chunk })) ∧
        (∀ q ∈ pre,
          requestsTo q ((requestChunk ops index (pre ++ pm :: post) s chunk).log.drop
            s.log.length) = 1 ∧
          cancelsTo q ((requestChunk ops index (pre ++ pm :: post) s chunk).log.drop
            s.log.length) = 0) ∧
        (requestsTo pm ((requestChunk ops index (pre ++ pm :: post) s chunk).log.drop
            s.log.length) = 1 ∧
          cancelsTo pm ((requestChunk ops index (pre ++ pm :: post) s chunk).log.drop
            s.log.length) = 0) ∧
        (∀ q ∈ post,
          requestsTo q ((requestChunk ops index (pre ++ pm :: post) s chunk).log.drop
            s.log.length) = 0 ∧
          cancelsTo q ((requestChunk ops index (pre ++ pm :: post) s chunk).log.drop
            s.log.length) = 1)) ∧
    (∀ (ops : PeerOps) (index : Nat) (chunks : List ChunkSpec) (p1 : Nat) (rest : List Nat)
        (s : State),
        (p1 :: rest).Nodup →
        (∀ st r, (ops.request p1 st r).2 = true) →
        (chunks.foldl (requestChunk ops index (p1 :: rest)) s).log =
          s.log ++ chunks.flatMap (fun c =>
            Event.request p1 { Index := index, chunk := c } true ::
              rest.map fun p => Event.cancel p { Index := index, chunk := c }) ∧
        requestCalls ((chunks.foldl (requestChunk ops index (p1 :: rest)) s).log.drop
          s.log.length) = chunks.length ∧
        requestsTo p1 ((chunks.foldl (requestChunk ops index (p1 :: rest)) s).log.drop
          s.log.length) = chunks.length ∧
        cancelsTo p1 ((chunks.foldl (requestChunk ops index (p1 :: rest)) s).log.drop
          s.log.length) = 0 ∧
        ∀ q ∈ rest,
          requestsTo q ((chunks.foldl (requestChunk ops index (p1 :: rest)) s).log.drop
            s.log.length) = 0 ∧
          cancelsTo q ((chunks.foldl (requestChunk ops index (p1 :: rest)) s).log.drop
            s.log.length) = chunks.length) := by
  constructor
  · intro ops index chunk pre pm post s hnd hpre hpm
    have hlog := (walkPeers_first_acceptor ops { Index := index, chunk := chunk } pre pm post 0 s
      hnd hpre hpm).1
    have hcount := counts_first_acceptor { Index := index, chunk := chunk } pre pm post hnd
    have hnd1 := hnd
    rw [List.nodup_append] at hnd1
    obtain ⟨-, hrest, hdisj⟩ := hnd1
    rw [List.nodup_cons] at hrest
    unfold requestChunk
    rw [hlog, List.drop_left]
    refine ⟨rfl, fun q hq => ?_, ?_, fun q hq => ?_⟩
    · have h1 : q ∉ post := fun h => hdisj hq (List.mem_cons_of_mem _ h)
      rw [(hcount q).1, (hcount q).2]
      simp [hq, h1]
    · have h1 : pm ∉ post := hrest.1
      rw [(hcount pm).1, (hcount pm).2]
      simp [h1]
    · have h1 : q ∉ pre := fun h => hdisj h (List.mem_cons_of_mem _ hq)
      have h2 : q ≠ pm := fun h => hrest.1 (h ▸ hq)
      rw [(hcount q).1, (hcount q).2]
      simp [hq, h1, h2]
  · intro ops index chunks p1 rest s hnd hacc
    rw [chunkLoop_first_accepts ops index p1 rest hnd hacc chunks s, List.drop_left]
    exact ⟨rfl, counts_first_accepts index p1 rest hnd chunks⟩

/-- Witness of C2: peers 2, 1, 3 where only peer 1 accepts: peer 2 is asked and
fails, peer 1 is asked and accepts, peer 3 is cancelled; and with peer 1 first, two
chunks give two requests on peer 1 and two cancels on peer 3. -/
theorem chunk_dispatch_first_acceptor_witness :
    (requestChunk onlyFirstOps 0 ([2] ++ 1 :: [3]) idleState chunk0).log =
      [Event.request 2 { Index := 0, chunk := chunk0 } false,
        Event.request 1 { Index := 0, chunk := chunk0 } true,
        Event.cancel 3 { Index := 0, chunk := chunk0 }] ∧
    requestsTo 1 (([chunk0, chunk1].foldl (requestChunk onlyFirstOps 0 (1 :: [2, 3]))
      idleState).log.drop idleState.log.length) = 2 ∧
    cancelsTo 3 (([chunk0, chunk1].foldl (requestChunk onlyFirstOps 0 (1 :: [2, 3]))
      idleState).log.drop idleState.log.length) = 2 :=
  ⟨(chunk_dispatch_first_acceptor.1 onlyFirstOps 0 chunk0 [2] 1 [3] idleState (by decide)
      (by decide) (by decide)).1,
    (chunk_dispatch_first_acceptor.2 onlyFirstOps 0 [chunk0, chunk1] 1 [2, 3] idleState
      (by decide) (fun _ _ => rfl)).2.2.1,
    ((chunk_dispatch_first_acceptor.2 onlyFirstOps 0 [chunk0, chunk1] 1 [2, 3] idleState
      (by decide) (fun _ _ => rfl)).2.2.2.2 3 (by decide)).2⟩

/-! ## The rotation of the requestees -/

theorem swapAt_eq_some (peers : List Nat) (i : Nat) (j : Int) (hi : i < peers.length)
    (hj0 : 0 ≤ j) (hj : j.toNat < peers.length) :
    swapAt peers i j = some ((peers.set i peers[j.toNat]).set j.toNat peers[i]) := by
  unfold swapAt
  rw [if_neg (by omega), List.getElem?_eq_getElem hi, List.getElem?_eq_getElem hj]

theorem swapAt_some_bounds (peers : List Nat) (i : Nat) (j : Int) (r : List Nat)
    (h : swapAt peers i j = some r) : i < peers.length ∧ 0 ≤ j ∧ j.toNat < peers.length := by
  unfold swapAt at h
  split at h
  · exact absurd h (by simp)
  · rename_i hj
    split at h
    · rename_i a b ha hb
      have h1 := (List.getElem?_eq_some_iff.1 ha).1
      have h2 := (List.getElem?_eq_some_iff.1 hb).1
      exact ⟨h1, by omega, h2⟩
    · exact absurd h (by simp)

theorem swap_perm (peers : List Nat) (i j : Nat) (hi : i < peers.length)
    (hj : j < peers.length) : ((peers.set i peers[j]).set j peers[i]).Perm peers := by
  rw [List.perm_iff_count]
  intro x
  have hj1 : j < (peers.set i peers[j]).length := by simpa using hj
  rw [List.count_set _ _ _ _ hj1, List.count_set _ _ _ _ hi]
  have hget : (peers.set i peers[j])[j] = peers[j] := by
    rw [List.getElem_set]
    split
    · rfl
    · rfl
  rw [hget]
  have h1 : (if (peers[i] == x) = true then 1 else 0) ≤ peers.count x := by
    have := List.boole_getElem_le_countP (fun y => y == x) peers i hi
    simpa [List.count_eq_countP] using this
  omega

theorem rotateLoop_spec (order : List Nat) (peers : List Nat) (last : Int)
    (hb : ∀ i ∈ order, i < peers.length) (hlen : (order.length : Int) ≤ last + 1)
    (hlast : last < peers.length) :
    ∃ r, rotateLoop order peers last = some r ∧ r.length = peers.length ∧ r.Perm peers ∧
      ∀ p : Nat, (p : Int) ≤ last - order.length → p ∉ order → r[p]? = peers[p]? := by
  induction order generalizing peers last with
  | nil => exact ⟨peers, rfl, rfl, List.Perm.refl _, fun _ _ _ => rfl⟩
  | cons i rest ih =>
    have hi : i < peers.length := hb i (List.mem_cons_self _ _)
    simp only [List.length_cons, Nat.cast_add, Nat.cast_one] at hlen
    have hl0 : 0 ≤ last := by omega
    have hl1 : last.toNat < peers.length := by omega
    have hsw := swapAt_eq_some peers i last hi hl0 hl1
    have hlen1 : ((peers.set i peers[last.toNat]).set last.toNat peers[i]).length =
        peers.length := by simp
    obtain ⟨r, hr, hrl, hrp, hru⟩ := ih ((peers.set i peers[last.toNat]).set last.toNat peers[i])
      (last - 1) (fun k hk => by rw [hlen1]; exact hb k (List.mem_cons_of_mem _ hk))
      (by omega) (by rw [hlen1]; omega)
    refine ⟨r, ?_, by rw [hrl, hlen1], hrp.trans (swap_perm peers i last.toNat hi hl1), ?_⟩
    · unfold rotateLoop
      rw [hsw]
      exact hr
    · intro p hp hmem
      simp only [List.length_cons, Nat.cast_add, Nat.cast_one] at hp
      rw [List.mem_cons, not_or] at hmem
      rw [hru p (by omega) hmem.2]
      have h1 : last.toNat ≠ p := by omega
      have h2 : i ≠ p := fun h => hmem.1 h.symm
      rw [List.getElem?_set_ne h1, List.getElem?_set_ne h2]

theorem rotate_spec (peers order : List Nat) (hb : ∀ i ∈ order, i < peers.length)
    (hlen : order.length ≤ peers.length) :
    ∃ r, rotate peers order = some r ∧ r.length = peers.length ∧ r.Perm peers ∧
      ∀ p : Nat, p + order.length < peers.length → p ∉ order → r[p]? = peers[p]? := by
  obtain ⟨r, h1, h2, h3, h4⟩ := rotateLoop_spec order peers ((peers.length : Int) - 1) hb
    (by omega) (by omega)
  exact ⟨r, h1, h2, h3, fun p hp hmem => h4 p (by omega) hmem⟩

theorem length_le_of_nodup_of_lt (order : List Nat) (n : Nat) (hnd : order.Nodup)
    (hb : ∀ i ∈ order, i < n) : order.length ≤ n := by
  have hsub : order ⊆ List.range n := fun i hi => List.mem_range.2 (hb i hi)
  have := (List.subperm_of_subset hnd hsub).length_le
  simpa using this

/-- C3 (the code misses it): in a pass over one piece of two chunks with the ranked
peers 30, 20, 10, peer 30 accepts the first chunk, then refuses the second, peer 20
refuses and peer 10 accepts: positions 0 and 2 contributed. Ranging over the map in
the order 0, 2 the rotation yields 10, 30, 20: the contributing peer 10 stands in
front of the peer 20 that did not contribute. (In the order 2, 0 it yields
20, 30, 10, with both contributing peers at the back.) -/
theorem rotation_leaves_contributor_in_front :
    (doRequests oneSlotOps (fun _ c => c) threePeerClient).map
        (fun s => s.log.filter Event.isAccepted) =
      some [Event.request 30 { Index := 0, chunk := chunk0 } true,
        Event.request 10 { Index := 0, chunk := chunk1 } true] ∧
    (doRequests oneSlotOps (fun _ c => c) threePeerClient).map (fun s => s.allPeers 0) =
      some [10, 30, 20] ∧
    rotate [30, 20, 10] [0, 2] = some [10, 30, 20] ∧
    contributors [30, 20, 10] [0, 2] = [30, 10] ∧
    ¬ contributorsLast [10, 30, 20] (contributors [30, 20, 10] [0, 2]) ∧
    rotate [30, 20, 10] [2, 0] = some [20, 30, 10] ∧
    contributorsLast [20, 30, 10] (contributors [30, 20, 10] [2, 0]) := by
  decide

/-- Counterexample to C4 as stated: with the peers 10, 20, 30 and position 0
contributing, the rotation yields 30, 20, 10: the peers 20 and 30, which did not
contribute, have changed their relative order. -/
theorem rotation_not_stable :
    rotate [10, 20, 30] [0] = some [30, 20, 10] ∧
    contributors [10, 20, 30] [0] = [10] ∧
    withoutPeers [10] [10, 20, 30] = [20, 30] ∧
    withoutPeers [10] [30, 20, 10] = [30, 20] ∧
    ¬ (∀ peers order r : List Nat, peers.Nodup → order.Nodup →
        (∀ i ∈ order, i < peers.length) → rotate peers order = some r →
        withoutPeers (contributors peers order) r =
            withoutPeers (contributors peers order) peers ∧
          onlyPeers (contributors peers order) r =
            onlyPeers (contributors peers order) peers) := by
  refine ⟨by decide, by decide, by decide, by decide, fun h => ?_⟩
  have h1 := (h [10, 20, 30] [0] [30, 20, 10] (by decide) (by decide) (by decide)
    (by decide)).1
  exact absurd h1 (by decide)

/-- C4 (amended): for every ranked peer list and every enumeration of a set of
contributing positions, the rotation completes, yields a permutation of the list,
and leaves in place every peer standing at a non-contributing position below
`len(peers) - len(contributed)`; these peers therefore keep their relative
order. -/
theorem rotation_keeps_untouched_front (peers order : List Nat) (hnd : order.Nodup)
    (hb : ∀ i ∈ order, i < peers.length) :
    ∃ r, rotate peers order = some r ∧ r.Perm peers ∧
      ∀ p : Nat, p + order.length < peers.length → p ∉ order → r[p]? = peers[p]? := by
  obtain ⟨r, h1, -, h3, h4⟩ := rotate_spec peers order hb
    (length_le_of_nodup_of_lt order peers.length hnd hb)
  exact ⟨r, h1, h3, h4⟩

/-- Witness of C4 (amended): five peers, positions 1 and 3 contributing. -/
theorem rotation_keeps_untouched_front_witness :
    ∃ r, rotate [10, 20, 30, 40, 50] [1, 3] = some r ∧ r.Perm [10, 20, 30, 40, 50] ∧
      ∀ p : Nat, p + [1, 3].length < [10, 20, 30, 40, 50].length → p ∉ [1, 3] →
        r[p]? = [10, 20, 30, 40, 50][p]? :=
  rotation_keeps_untouched_front [10, 20, 30, 40, 50] [1, 3] (by decide) (by decide)

/-! ## Invariants of the chunk loop -/

theorem insertContributed_inv (c : List Nat) (i n : Nat) (hnd : c.Nodup)
    (hb : ∀ k ∈ c, k < n) (hi : i < n) :
    (insertContributed c i).Nodup ∧ ∀ k ∈ insertContributed c i, k < n := by
  unfold insertContributed
  split
  · exact ⟨hnd, hb⟩
  · rename_i hmem
    refine ⟨?_, fun k hk => ?_⟩
    · rw [List.nodup_append]
      exact ⟨hnd, List.nodup_singleton i, fun a ha hb' => hmem (by
        rw [List.mem_singleton] at hb'
        exact hb' ▸ ha)⟩
    · rcases List.mem_append.1 hk with h | h
      · exact hb k h
      · rw [List.mem_singleton] at h
        omega

theorem walkPeers_inv (ops : PeerOps) (req : Request) (n : Nat) (peers : List Nat) (i : Nat)
    (b : Bool) (s : State) (hnd : s.contributed.Nodup) (hb : ∀ k ∈ s.contributed, k < n)
    (hi : i + peers.length ≤ n) :
    (walkPeers ops req peers i b s).contributed.Nodup ∧
    (∀ k ∈ (walkPeers ops req peers i b s).contributed, k < n) ∧
    ∃ new, (walkPeers ops req peers i b s).log = s.log ++ new ∧
      ∀ e ∈ new, e.isPeerCall = true := by
  induction peers generalizing i b s with
  | nil => exact ⟨hnd, hb, [], by simp [walkPeers], by simp⟩
  | cons p rest ih =>
    simp only [List.length_cons] at hi
    unfold walkPeers
    split
    · obtain ⟨h1, h2, new, h3, h4⟩ := ih (i + 1) true
        { s with
          peer := Function.update s.peer p (ops.cancel p (s.peer p) req)
          log := s.log ++ [Event.cancel p req] } hnd hb (by omega)
      refine ⟨h1, h2, Event.cancel p req :: new, by rw [h3]; simp, fun e he => ?_⟩
      rcases List.mem_cons.1 he with rfl | he
      · rfl
      · exact h4 e he
    · have hins : (if (ops.request p (s.peer p) req).2 = true
            then insertContributed s.contributed i else s.contributed).Nodup ∧
          ∀ k ∈ (if (ops.request p (s.peer p) req).2 = true
            then insertContributed s.contributed i else s.contributed), k < n := by
        split
        · exact insertContributed_inv s.contributed i n hnd hb (by omega)
        · exact ⟨hnd, hb⟩
      obtain ⟨h1, h2, new, h3, h4⟩ := ih (i + 1) (ops.request p (s.peer p) req).2
        { s with
          peer := Function.update s.peer p (ops.request p (s.peer p) req).1
          log := s.log ++ [Event.request p req (ops.request p (s.peer p) req).2]
          contributed :=
            if (ops.request p (s.peer p) req).2 = true then insertContributed s.contributed i
            else s.contributed } hins.1 hins.2 (by omega)
      refine ⟨h1, h2, Event.request p req (ops.request p (s.peer p) req).2 :: new,
        by rw [h3]; simp, fun e he => ?_⟩
      rcases List.mem_cons.1 he with rfl | he
      · rfl
      · exact h4 e he

theorem chunkLoop_inv (ops : PeerOps) (index : Nat) (peers : List Nat)
    (chunks : List ChunkSpec) (s : State) (hnd : s.contributed.Nodup)
    (hb : ∀ k ∈ s.contributed, k < peers.length) :
    (chunks.foldl (requestChunk ops index peers) s).contributed.Nodup ∧
    (∀ k ∈ (chunks.foldl (requestChunk ops index peers) s).contributed, k < peers.length) ∧
    (chunks.foldl (requestChunk ops index peers) s).allPeers = s.allPeers ∧
    (chunks.foldl (requestChunk ops index peers) s).storageLeft = s.storageLeft ∧
    ∃ new, (chunks.foldl (requestChunk ops index peers) s).log = s.log ++ new ∧
      ∀ e ∈ new, e.isPeerCall = true := by
  induction chunks generalizing s with
  | nil => exact ⟨hnd, hb, rfl, rfl, [], by simp, by simp⟩
  | cons c chunks ih =>
    simp only [List.foldl_cons]
    obtain ⟨w1, w2, new1, w3, w4⟩ := walkPeers_inv ops { Index := index, chunk := c }
      peers.length peers 0 false s hnd hb (by omega)
    obtain ⟨f1, f2⟩ := walkPeers_frame ops { Index := index, chunk := c } peers 0 false s
    obtain ⟨h1, h2, h3, h4, new2, h5, h6⟩ := ih (requestChunk ops index peers s c) w1 w2
    refine ⟨h1, h2, h3.trans f1, h4.trans f2, new1 ++ new2, ?_, fun e he => ?_⟩
    · rw [h5]
      unfold requestChunk
      rw [w3, List.append_assoc]
    · rcases List.mem_append.1 he with h | h
      · exact w4 e h
      · exact h6 e h

/-! ## One piece of the pass -/

theorem requestAndRotate_spec (ops : PeerOps) (order : List Nat → List Nat)
    (p : pieceRequestOrderPiece) (peers : List Nat) (chunks : List ChunkSpec) (s1 : State)
    (hc : s1.contributed = []) (horder : ∀ l, (order l).Perm l) :
    ∃ s2, requestAndRotate ops order p peers chunks s1 = some s2 ∧ s2.contributed = [] ∧
      s2.storageLeft = s1.storageLeft ∧ (s2.allPeers p.t).Perm peers ∧
      (∀ t, t ≠ p.t → s2.allPeers t = s1.allPeers t) ∧
      ∃ new, s2.log = s1.log ++ new ∧ ∀ e ∈ new, e.isPeerCall = true := by
  obtain ⟨h1, h2, h3, h4, new, h5, h6⟩ := chunkLoop_inv ops p.index peers chunks s1
    (by rw [hc]; exact List.nodup_nil) (by rw [hc]; simp)
  have hperm := horder (chunks.foldl (requestChunk ops p.index peers) s1).contributed
  obtain ⟨r, hr, -, hrp, -⟩ := rotate_spec peers
    (order (chunks.foldl (requestChunk ops p.index peers) s1).contributed)
    (fun i hi => h2 i (hperm.mem_iff.1 hi))
    (length_le_of_nodup_of_lt _ _ (hperm.nodup_iff.2 h1) (fun i hi => h2 i (hperm.mem_iff.1 hi)))
  refine ⟨{ chunks.foldl (requestChunk ops p.index peers) s1 with
      allPeers :=
        Function.update (chunks.foldl (requestChunk ops p.index peers) s1).allPeers p.t r
      contributed := [] }, by unfold requestAndRotate; rw [hr], rfl, h4, ?_,
    fun t ht => ?_, new, h5, h6⟩
  · simpa using hrp
  · simp [Function.update_noteq ht, h3]

theorem admission_some (cl : Client) (p : pieceRequestOrderPiece) (s s1 : State)
    (h : admission cl p s = some s1) :
    s1.contributed = s.contributed ∧ s1.allPeers = s.allPeers ∧ s1.peer = s.peer ∧
    s1.log = s.log ++ [Event.reserve p.t p.index ((cl.torrent p.t).piece p.index).length] := by
  unfold admission at h
  split at h
  · split at h
    · exact absurd h (by simp)
    · cases h
      exact ⟨rfl, rfl, rfl, rfl⟩
  · cases h
    exact ⟨rfl, rfl, rfl, rfl⟩

theorem admission_budget (cl : Client) (p : pieceRequestOrderPiece) (s : State) (c : Nat)
    (left : Int) (hcap : (cl.torrent p.t).Capacity = some c)
    (hleft : s.storageLeft c = some (some left)) :
    admission cl p s =
      if left < (((cl.torrent p.t).piece p.index).length : Int) then none
      else some { s with
        storageLeft := Function.update s.storageLeft c
          (some (some (left - (((cl.torrent p.t).piece p.index).length : Int))))
        log := s.log ++ [Event.reserve p.t p.index ((cl.torrent p.t).piece p.index).length] } := by
  have hl : storageLookup s (cl.torrent p.t).Capacity = some left := by
    rw [hcap]
    simp [storageLookup, hleft]
  unfold admission
  rw [hl, hcap]

theorem admission_unlimited (cl : Client) (p : pieceRequestOrderPiece) (s : State)
    (h : storageLookup s (cl.torrent p.t).Capacity = none) :
    admission cl p s =
      some { s with
        log := s.log ++ [Event.reserve p.t p.index ((cl.torrent p.t).piece p.index).length] } := by
  unfold admission
  split
  · rename_i h1 h2
    rw [h] at h2
    exact absurd h2 (by simp)
  · rfl

theorem admission_other (cl : Client) (p : pieceRequestOrderPiece) (s s1 : State) (c : Nat)
    (h : admission cl p s = some s1) (hc : (cl.torrent p.t).Capacity ≠ some c) :
    s1.storageLeft c = s.storageLeft c := by
  unfold admission at h
  split at h
  · rename_i c1 left h1 h2
    split at h
    · exact absurd h (by simp)
    · cases h
      have hne : c ≠ c1 := fun e => hc (e ▸ h1)
      simp [Function.update_noteq hne]
  · cases h
    rfl

/-- C5: a piece that is not ignored and whose full length exceeds what is left of
the budget of its storage identity is skipped: the state after the piece is the state
before it (no request, no cancel, same peer lists, same budget counters), so the
piece loop goes on with the following records from that same state. -/
theorem oversized_piece_skipped (ops : PeerOps) (cl : Client) (order : List Nat → List Nat)
    (p : pieceRequestOrderPiece) (s : State) (c : Nat) (left : Int)
    (hign : ((cl.torrent p.t).piece p.index).ignorePieceForRequests = false)
    (hcap : (cl.torrent p.t).Capacity = some c)
    (hleft : s.storageLeft c = some (some left))
    (hlt : left < (((cl.torrent p.t).piece p.index).length : Int)) :
    processPiece ops cl order p s = some s ∧
    ∀ (mapOrder : Nat → List Nat → List Nat) (k : Nat) (rest : List pieceRequestOrderPiece),
      mapOrder k = order →
      dispatch ops cl mapOrder k (p :: rest) s = dispatch ops cl mapOrder (k + 1) rest s := by
  have h : processPiece ops cl order p s = some s := by
    unfold processPiece
    rw [hign, admission_budget cl p s c left hcap hleft, if_pos hlt]
    rfl
  refine ⟨h, fun mapOrder k rest hk => ?_⟩
  rw [dispatch, hk, h]

/-- Witness of C5: with 32767 bytes left, the piece of 32768 bytes is skipped; in the
whole pass the only reservation and the only request are for the second piece, which
is admitted against the full 32767 bytes. -/
theorem oversized_piece_skipped_witness :
    processPiece oneSlotOps tightBudgetClient (fun c => c)
        { t := 0, index := 0, prio := 2, partialFlag := false, availability := 1 }
        (build tightBudgetClient).2 = some (build tightBudgetClient).2 ∧
    (doRequests oneSlotOps (fun _ c => c) tightBudgetClient).map
        (fun s => (s.storageLeft 7, s.log)) =
      some (some (some 16383),
        [Event.capacity 7, Event.reserve 0 1 16384,
          Event.request 10 { Index := 1, chunk := chunk0 } true]) :=
  ⟨(oversized_piece_skipped oneSlotOps tightBudgetClient (fun c => c)
      { t := 0, index := 0, prio := 2, partialFlag := false, availability := 1 }
      (build tightBudgetClient).2 7 32767 (by decide) (by decide) (by decide) (by decide)).1,
    by decide⟩

/-- C7: a piece that is not ignored and whose length `L` is at most the `R` bytes left
for its storage identity is admitted: the piece is processed (the step completes),
the counter of that identity becomes exactly `R - L` and no other counter changes,
whatever the undirtied chunks of the piece, the peer list and the answers of the
peers are; after the reservation the step only makes peer calls. -/
theorem admitted_piece_charged (ops : PeerOps) (cl : Client) (order : List Nat → List Nat)
    (p : pieceRequestOrderPiece) (s : State) (c : Nat) (R : Int)
    (hign : ((cl.torrent p.t).piece p.index).ignorePieceForRequests = false)
    (hcap : (cl.torrent p.t).Capacity = some c)
    (hleft : s.storageLeft c = some (some R))
    (hle : (((cl.torrent p.t).piece p.index).length : Int) ≤ R)
    (hc : s.contributed = []) (horder : ∀ l, (order l).Perm l) :
    ∃ s2, processPiece ops cl order p s = some s2 ∧
      s2.storageLeft c = some (some (R - (((cl.torrent p.t).piece p.index).length : Int))) ∧
      (∀ c1, c1 ≠ c → s2.storageLeft c1 = s.storageLeft c1) ∧
      ∃ new, s2.log =
          s.log ++ Event.reserve p.t p.index ((cl.torrent p.t).piece p.index).length :: new ∧
        ∀ e ∈ new, e.isPeerCall = true := by
  have hadm := admission_budget cl p s c R hcap hleft
  rw [if_neg (by omega)] at hadm
  obtain ⟨s2, h1, -, h3, -, -, new, h6, h7⟩ := requestAndRotate_spec ops order p (s.allPeers p.t)
    ((cl.torrent p.t).piece p.index).undirtied
    { s with
      storageLeft := Function.update s.storageLeft c
        (some (some (R - (((cl.torrent p.t).piece p.index).length : Int))))
      log := s.log ++ [Event.reserve p.t p.index ((cl.torrent p.t).piece p.index).length] }
    hc horder
  refine ⟨s2, ?_, ?_, fun c1 hc1 => ?_, new, ?_, h7⟩
  · unfold processPiece
    rw [hign, hadm]
    exact h1
  · rw [h3]
    simp
  · rw [h3]
    simp [Function.update_noteq hc1]
  · rw [h6]
    simp

/-- Witness of C7: with 32767 bytes left, the piece of 16384 bytes is admitted and
16383 bytes are left. -/
theorem admitted_piece_charged_witness :
    ∃ s2, processPiece oneSlotOps tightBudgetClient (fun c => c)
        { t := 0, index := 1, prio := 1, partialFlag := false, availability := 1 }
        (build tightBudgetClient).2 = some s2 ∧
      s2.storageLeft 7 = some (some (32767 - ((16384 : Nat) : Int))) ∧
      (∀ c1, c1 ≠ 7 → s2.storageLeft c1 = (build tightBudgetClient).2.storageLeft c1) ∧
      ∃ new, s2.log = (build tightBudgetClient).2.log ++ Event.reserve 0 1 16384 :: new ∧
        ∀ e ∈ new, e.isPeerCall = true :=
  admitted_piece_charged oneSlotOps tightBudgetClient (fun c => c)
    { t := 0, index := 1, prio := 1, partialFlag := false, availability := 1 }
    (build tightBudgetClient).2 7 32767 (by decide) (by decide) (by decide) (by decide)
    (by decide) (fun _ => List.Perm.refl _)

/-! ## The storage budget over a pass -/

theorem reservedFor_append (cl : Client) (c : Nat) (l1 l2 : List Event) :
    reservedFor cl c (l1 ++ l2) = reservedFor cl c l1 + reservedFor cl c l2 := by
  induction l1 with
  | nil => simp [reservedFor]
  | cons e l1 ih =>
    cases e <;> simp only [List.cons_append, reservedFor, List.append_eq, ih]
    omega

theorem reservedFor_eq_zero (cl : Client) (c : Nat) (l : List Event)
    (h : ∀ e ∈ l, ∀ t i n, e ≠ Event.reserve t i n) : reservedFor cl c l = 0 := by
  induction l with
  | nil => rfl
  | cons e l ih =>
    have ih1 := ih fun e he => h e (List.mem_cons_of_mem _ he)
    cases e with
    | reserve t i n => exact absurd rfl (h _ (List.mem_cons_self _ _) t i n)
    | capacity _ => simpa [reservedFor] using ih1
    | request _ _ _ => simpa [reservedFor] using ih1
    | cancel _ _ => simpa [reservedFor] using ih1
    | setInterested _ _ => simpa [reservedFor] using ih1

theorem reservedFor_peerCalls (cl : Client) (c : Nat) (l : List Event)
    (h : ∀ e ∈ l, e.isPeerCall = true) : reservedFor cl c l = 0 :=
  reservedFor_eq_zero cl c l fun e he t i n hr => by
    have := h e he
    rw [hr] at this
    exact absurd this (by simp [Event.isPeerCall])

theorem processPiece_budget (ops : PeerOps) (cl : Client) (order : List Nat → List Nat)
    (p : pieceRequestOrderPiece) (s : State) (c : Nat) (B R : Int)
    (horder : ∀ l, (order l).Perm l) (hc : s.contributed = [])
    (hleft : s.storageLeft c = some (some R)) (h0 : 0 ≤ R)
    (hsum : R + reservedFor cl c s.log = B) :
    ∃ s2 R2, processPiece ops cl order p s = some s2 ∧ s2.contributed = [] ∧
      s2.storageLeft c = some (some R2) ∧ 0 ≤ R2 ∧ R2 ≤ R ∧
      R2 + reservedFor cl c s2.log = B := by
  unfold processPiece
  split
  · exact ⟨s, R, rfl, hc, hleft, h0, le_refl _, hsum⟩
  · cases hadm : admission cl p s with
    | none => exact ⟨s, R, rfl, hc, hleft, h0, le_refl _, hsum⟩
    | some s1 =>
      obtain ⟨a1, -, -, a4⟩ := admission_some cl p s s1 hadm
      obtain ⟨s2, h1, h2, h3, -, -, new, h6, h7⟩ := requestAndRotate_spec ops order p
        (s.allPeers p.t) ((cl.torrent p.t).piece p.index).undirtied s1 (a1.trans hc) horder
      have hlog : reservedFor cl c s2.log = reservedFor cl c s.log +
          (if (cl.torrent p.t).Capacity = some c
            then (((cl.torrent p.t).piece p.index).length : Int) else 0) := by
        rw [h6, a4, reservedFor_append, reservedFor_append, reservedFor_peerCalls cl c new h7]
        simp [reservedFor]
      by_cases hcap : (cl.torrent p.t).Capacity = some c
      · have hb := admission_budget cl p s c R hcap hleft
        rw [hadm] at hb
        split at hb
        · exact absurd hb (by simp)
        · rename_i hlt
          have hs1 : s1.storageLeft c =
              some (some (R - (((cl.torrent p.t).piece p.index).length : Int))) := by
            rw [Option.some.inj hb]
            simp
          refine ⟨s2, R - (((cl.torrent p.t).piece p.index).length : Int), h1, h2,
            by rw [h3, hs1], by omega, by omega, ?_⟩
          rw [hlog, if_pos hcap]
          omega
      · refine ⟨s2, R, h1, h2, ?_, h0, le_refl _, ?_⟩
        · rw [h3, admission_other cl p s s1 c hadm hcap, hleft]
        · rw [hlog, if_neg hcap]
          omega

theorem dispatch_budget (ops : PeerOps) (cl : Client) (mapOrder : Nat → List Nat → List Nat)
    (c : Nat) (B : Int) (hmap : ∀ k l, (mapOrder k l).Perm l)
    (pieces : List pieceRequestOrderPiece) (k : Nat) (s : State) (R : Int)
    (hc : s.contributed = []) (hleft : s.storageLeft c = some (some R)) (h0 : 0 ≤ R)
    (hsum : R + reservedFor cl c s.log = B) :
    ∃ s2 R2, dispatch ops cl mapOrder k pieces s = some s2 ∧ s2.contributed = [] ∧
      s2.storageLeft c = some (some R2) ∧ 0 ≤ R2 ∧ R2 ≤ R ∧
      R2 + reservedFor cl c s2.log = B := by
  induction pieces generalizing k s R with
  | nil => exact ⟨s, R, rfl, hc, hleft, h0, le_refl _, hsum⟩
  | cons p rest ih =>
    obtain ⟨s1, R1, h1, h2, h3, h4, h5, h6⟩ := processPiece_budget ops cl (mapOrder k) p s c B R
      (hmap k) hc hleft h0 hsum
    obtain ⟨s2, R2, g1, g2, g3, g4, g5, g6⟩ := ih (k + 1) s1 R1 h2 h3 h4 h6
    refine ⟨s2, R2, ?_, g2, g3, g4, by omega, g6⟩
    rw [dispatch, h1]
    exact g1

theorem dispatch_append (ops : PeerOps) (cl : Client) (mapOrder : Nat → List Nat → List Nat)
    (l1 l2 : List pieceRequestOrderPiece) (k : Nat) (s : State) :
    dispatch ops cl mapOrder k (l1 ++ l2) s =
      (dispatch ops cl mapOrder k l1 s).bind (dispatch ops cl mapOrder (k + l1.length) l2) := by
  induction l1 generalizing k s with
  | nil => simp [dispatch]
  | cons p l1 ih =>
    simp only [List.cons_append, dispatch, List.length_cons, List.append_eq]
    cases processPiece ops cl (mapOrder k) p s with
    | none => rfl
    | some s1 =>
      show dispatch ops cl mapOrder (k + 1) (l1 ++ l2) s1 =
        (dispatch ops cl mapOrder (k + 1) l1 s1).bind
          (dispatch ops cl mapOrder (k + (l1.length + 1)) l2)
      rw [ih, Nat.add_assoc, Nat.add_comm 1]

/-! ## Completion of the piece loop -/

theorem isInterest_of_isPeerCall (e : Event) (h : e.isPeerCall = true) :
    e.isInterest = false := by
  cases e <;> simp [Event.isPeerCall, Event.isInterest] at h ⊢

theorem processPiece_total (ops : PeerOps) (cl : Client) (order : List Nat → List Nat)
    (p : pieceRequestOrderPiece) (s : State) (horder : ∀ l, (order l).Perm l)
    (hc : s.contributed = []) :
    ∃ s2, processPiece ops cl order p s = some s2 ∧ s2.contributed = [] ∧
      ∃ new, s2.log = s.log ++ new ∧ ∀ e ∈ new, e.isInterest = false := by
  unfold processPiece
  split
  · exact ⟨s, rfl, hc, [], by simp, by simp⟩
  · cases hadm : admission cl p s with
    | none => exact ⟨s, rfl, hc, [], by simp, by simp⟩
    | some s1 =>
      obtain ⟨a1, -, -, a4⟩ := admission_some cl p s s1 hadm
      obtain ⟨s2, h1, h2, -, -, -, new, h6, h7⟩ := requestAndRotate_spec ops order p
        (s.allPeers p.t) ((cl.torrent p.t).piece p.index).undirtied s1 (a1.trans hc) horder
      refine ⟨s2, h1, h2,
        Event.reserve p.t p.index ((cl.torrent p.t).piece p.index).length :: new,
        by rw [h6, a4]; simp, fun e he => ?_⟩
      rcases List.mem_cons.1 he with rfl | he
      · rfl
      · exact isInterest_of_isPeerCall e (h7 e he)

theorem dispatch_total (ops : PeerOps) (cl : Client) (mapOrder : Nat → List Nat → List Nat)
    (hmap : ∀ k l, (mapOrder k l).Perm l) (pieces : List pieceRequestOrderPiece) (k : Nat)
    (s : State) (hc : s.contributed = []) :
    ∃ s2, dispatch ops cl mapOrder k pieces s = some s2 ∧ s2.contributed = [] ∧
      ∃ new, s2.log = s.log ++ new ∧ ∀ e ∈ new, e.isInterest = false := by
  induction pieces generalizing k s with
  | nil => exact ⟨s, rfl, hc, [], by simp, by simp⟩
  | cons p rest ih =>
    obtain ⟨s1, h1, h2, new1, h3, h4⟩ := processPiece_total ops cl (mapOrder k) p s (hmap k) hc
    obtain ⟨s2, g1, g2, new2, g3, g4⟩ := ih (k + 1) s1 h2
    refine ⟨s2, by rw [dispatch, h1]; exact g1, g2, new1 ++ new2,
      by rw [g3, h3, List.append_assoc], fun e he => ?_⟩
    rcases List.mem_append.1 he with h | h
    · exact h4 e h
    · exact g4 e h

/-! ## The build step -/

theorem primeStorage_inv (cl : Client) (s : State) (t : Nat) (hc : s.contributed = [])
    (hlog : ∀ e ∈ s.log, ∃ c, e = Event.capacity c) :
    (primeStorage cl s t).contributed = [] ∧
    ∀ e ∈ (primeStorage cl s t).log, ∃ c, e = Event.capacity c := by
  unfold primeStorage
  split
  · exact ⟨hc, hlog⟩
  · split
    · exact ⟨hc, hlog⟩
    · refine ⟨hc, fun e he => ?_⟩
      rcases List.mem_append.1 he with h | h
      · exact hlog e h
      · exact ⟨_, List.mem_singleton.1 h⟩

theorem buildTorrent_inv (cl : Client) (b : List pieceRequestOrderPiece × State) (t : Nat)
    (hc : b.2.contributed = []) (hlog : ∀ e ∈ b.2.log, ∃ c, e = Event.capacity c) :
    (buildTorrent cl b t).2.contributed = [] ∧
    ∀ e ∈ (buildTorrent cl b t).2.log, ∃ c, e = Event.capacity c := by
  unfold buildTorrent
  by_cases h : (cl.torrent t).haveInfo = true
  · simp only [h, if_true]
    exact primeStorage_inv cl b.2 t hc hlog
  · simp only [h, if_false]
    exact ⟨hc, hlog⟩

theorem build_inv (cl : Client) :
    (build cl).2.contributed = [] ∧ ∀ e ∈ (build cl).2.log, ∃ c, e = Event.capacity c := by
  have h : ∀ (ts : List Nat) (b : List pieceRequestOrderPiece × State),
      b.2.contributed = [] → (∀ e ∈ b.2.log, ∃ c, e = Event.capacity c) →
      (ts.foldl (buildTorrent cl) b).2.contributed = [] ∧
      ∀ e ∈ (ts.foldl (buildTorrent cl) b).2.log, ∃ c, e = Event.capacity c := by
    intro ts
    induction ts with
    | nil => exact fun b h1 h2 => ⟨h1, h2⟩
    | cons t ts ih =>
      intro b h1 h2
      obtain ⟨g1, g2⟩ := buildTorrent_inv cl b t h1 h2
      exact ih _ g1 g2
  exact h cl.torrents ([], initState cl) rfl (by simp [initState])

/-! ## The interest turn-off -/

theorem interestPhase_eq_foldl (cl : Client) (s : State) :
    interestPhase cl s = (visitedPeers cl).foldl interestPeer s := by
  unfold interestPhase visitedPeers
  generalize cl.torrents = ts
  induction ts generalizing s with
  | nil => rfl
  | cons t ts ih => simp only [List.foldl_cons, List.flatMap_cons, List.foldl_append, ih]

theorem idleCondition_setInterested (x : Peer) (v : Bool) :
    idleCondition (setInterested x v) = idleCondition x := rfl

theorem interestPeer_spec (s : State) (p : Nat) :
    (interestPeer s p).storageLeft = s.storageLeft ∧
    (interestPeer s p).log =
      s.log ++ (if idleCondition (s.peer p) = true then [Event.setInterested p false] else []) ∧
    ∀ q, (interestPeer s p).peer q =
      if q = p ∧ idleCondition (s.peer p) = true then setInterested (s.peer p) false
      else s.peer q := by
  unfold interestPeer
  by_cases h : idleCondition (s.peer p) = true
  · have h1 : (!(s.peer p).peerChoking && (s.peer p).numLocalRequests == 0 &&
        !(s.peer p).writeBufferFull) = true := h
    rw [if_pos h1]
    refine ⟨rfl, by simp [h], fun q => ?_⟩
    by_cases hq : q = p
    · subst hq
      simp [h]
    · simp [hq, Function.update_noteq hq]
  · have h1 : ¬ (!(s.peer p).peerChoking && (s.peer p).numLocalRequests == 0 &&
        !(s.peer p).writeBufferFull) = true := h
    rw [if_neg h1]
    exact ⟨rfl, by simp [h], fun q => by simp [h]⟩

theorem interestFold_spec (l : List Nat) (s : State) :
    (l.foldl interestPeer s).storageLeft = s.storageLeft ∧
    (l.foldl interestPeer s).log =
      s.log ++ (l.filter fun p => idleCondition (s.peer p)).map
        (fun p => Event.setInterested p false) ∧
    ∀ q, (l.foldl interestPeer s).peer q =
      if q ∈ l ∧ idleCondition (s.peer q) = true then setInterested (s.peer q) false
      else s.peer q := by
  induction l generalizing s with
  | nil => simp
  | cons p l ih =>
    obtain ⟨a1, a2, a3⟩ := interestPeer_spec s p
    obtain ⟨b1, b2, b3⟩ := ih (interestPeer s p)
    have hcond : ∀ q, idleCondition ((interestPeer s p).peer q) = idleCondition (s.peer q) := by
      intro q
      rw [a3 q]
      split
      · rename_i h
        rw [idleCondition_setInterested, h.1]
      · rfl
    simp only [List.foldl_cons]
    refine ⟨b1.trans a1, ?_, fun q => ?_⟩
    · rw [b2, a2, List.append_assoc]
      congr 1
      have hf : (l.filter fun q => idleCondition ((interestPeer s p).peer q)) =
          l.filter fun q => idleCondition (s.peer q) :=
        List.filter_congr fun q _ => hcond q
      rw [hf, List.filter_cons]
      by_cases h : idleCondition (s.peer p) = true
      · simp [h]
      · simp [h]
    · rw [b3 q, hcond q, a3 q]
      by_cases hi : idleCondition (s.peer q) = true
      · by_cases hq : q = p
        · subst hq
          by_cases hm : q ∈ l
          · simp [hi, hm, setInterested]
          · simp [hi, hm]
        · by_cases hm : q ∈ l
          · simp [hi, hm, hq]
          · simp [hi, hm, hq]
      · by_cases hq : q = p
        · subst hq
          simp [hi]
        · simp [hi, hq]

theorem reservedFor_build (cl : Client) (c : Nat) : reservedFor cl c (build cl).2.log = 0 :=
  reservedFor_eq_zero cl c _ fun e he t i n hr => by
    obtain ⟨c1, hc1⟩ := (build_inv cl).2 e he
    rw [hr] at hc1
    exact absurd hc1 (by simp)

theorem reservedFor_interestPhase (cl : Client) (c : Nat) (s : State) :
    reservedFor cl c (interestPhase cl s).log = reservedFor cl c s.log ∧
    (interestPhase cl s).storageLeft = s.storageLeft := by
  rw [interestPhase_eq_foldl]
  obtain ⟨h1, h2, -⟩ := interestFold_spec (visitedPeers cl) s
  refine ⟨?_, h1⟩
  have hz : reservedFor cl c (((visitedPeers cl).filter fun p => idleCondition (s.peer p)).map
      (fun p => Event.setInterested p false)) = 0 :=
    reservedFor_eq_zero cl c _ fun e he t i n hr => by
      rw [List.mem_map] at he
      obtain ⟨q, -, hq⟩ := he
      rw [hr] at hq
      exact absurd hq (by simp)
  rw [h2, reservedFor_append, hz]
  omega

/-- C6: in a pass, for a storage budget identity queried at `B >= 0` bytes, the counter
after any number of records of the request order is some `R` with `0 <= R <= B`, the
next record never makes it larger, and `B - R` is exactly the sum of the lengths
reserved so far for pieces of the torrents sharing the identity; the pass completes,
and at its end the lengths reserved for the identity sum to at most `B`. -/
theorem storage_budget_respected (ops : PeerOps) (mapOrder : Nat → List Nat → List Nat)
    (cl : Client) (c : Nat) (B : Int) (hmap : ∀ k l, (mapOrder k l).Perm l) (hB : 0 ≤ B)
    (hq : (build cl).2.storageLeft c = some (some B)) :
    (∀ k : Nat, ∃ sk sk1 R R1,
      dispatch ops cl mapOrder 0 ((build cl).1.take k) (build cl).2 = some sk ∧
      dispatch ops cl mapOrder 0 ((build cl).1.take (k + 1)) (build cl).2 = some sk1 ∧
      sk.storageLeft c = some (some R) ∧ sk1.storageLeft c = some (some R1) ∧
      0 ≤ R1 ∧ R1 ≤ R ∧ R ≤ B ∧
      R + reservedFor cl c sk.log = B ∧ R1 + reservedFor cl c sk1.log = B) ∧
    ∃ s R, doRequests ops mapOrder cl = some s ∧ s.storageLeft c = some (some R) ∧
      0 ≤ R ∧ R ≤ B ∧ R + reservedFor cl c s.log = B ∧ reservedFor cl c s.log ≤ B := by
  have hinit : B + reservedFor cl c (build cl).2.log = B := by
    rw [reservedFor_build]
    omega
  constructor
  · intro k
    obtain ⟨sk, R, h1, h2, h3, h4, h5, h6⟩ := dispatch_budget ops cl mapOrder c B hmap
      ((build cl).1.take k) 0 (build cl).2 B (build_inv cl).1 hq hB hinit
    obtain ⟨sk1, R1, g1, -, g3, g4, g5, g6⟩ := dispatch_budget ops cl mapOrder c B hmap
      (((build cl).1.drop k).take 1) (0 + ((build cl).1.take k).length) sk R h2 h3 h4 h6
    refine ⟨sk, sk1, R, R1, h1, ?_, h3, g3, g4, g5, h5, h6, g6⟩
    rw [List.take_add, dispatch_append, h1]
    exact g1
  · obtain ⟨s, R, h1, -, h3, h4, h5, h6⟩ := dispatch_budget ops cl mapOrder c B hmap
      (build cl).1 0 (build cl).2 B (build_inv cl).1 hq hB hinit
    obtain ⟨i1, i2⟩ := reservedFor_interestPhase cl c s
    refine ⟨interestPhase cl s, R, ?_, by rw [i2, h3], h4, h5, by rw [i1]; exact h6,
      by rw [i1]; omega⟩
    unfold doRequests
    rw [h1]

/-- Witness of C6: the pass over the client whose identity 7 is queried at 32767
bytes. -/
theorem storage_budget_respected_witness :
    ∃ s R, doRequests oneSlotOps (fun _ c => c) tightBudgetClient = some s ∧
      s.storageLeft 7 = some (some R) ∧ 0 ≤ R ∧ R ≤ 32767 ∧
      R + reservedFor tightBudgetClient 7 s.log = 32767 ∧
      reservedFor tightBudgetClient 7 s.log ≤ 32767 :=
  (storage_budget_respected oneSlotOps (fun _ c => c) tightBudgetClient 7 32767
    (fun _ _ => List.Perm.refl _) (by decide) (by decide)).2

/-- C8: the pass completes, and its last phase calls `setInterested(false)` on a peer
exactly when the peer is visited (it belongs to some torrent of the client) and, in
the state the piece loop left, is not choking, has no outstanding local request and
has no full write buffer; these are the only `setInterested` calls of the pass, made in
the order of the visit. A peer with an outstanding request gets no `setInterested`
call and keeps its interest flag; a visited peer meeting the three conditions ends the
pass with interest false. -/
theorem interest_turn_off (ops : PeerOps) (mapOrder : Nat → List Nat → List Nat)
    (cl : Client) (hmap : ∀ k l, (mapOrder k l).Perm l) :
    ∃ s s2, dispatch ops cl mapOrder 0 (build cl).1 (build cl).2 = some s ∧
      doRequests ops mapOrder cl = some s2 ∧
      s2.log = s.log ++ ((visitedPeers cl).filter fun p => idleCondition (s.peer p)).map
        (fun p => Event.setInterested p false) ∧
      (∀ p v, Event.setInterested p v ∈ s2.log ↔
        (v = false ∧ p ∈ visitedPeers cl ∧ (s.peer p).peerChoking = false ∧
          (s.peer p).numLocalRequests = 0 ∧ (s.peer p).writeBufferFull = false)) ∧
      (∀ p, (s.peer p).numLocalRequests ≠ 0 →
        (∀ v, Event.setInterested p v ∉ s2.log) ∧
          (s2.peer p).interested = (s.peer p).interested) ∧
      (∀ p ∈ visitedPeers cl, (s.peer p).peerChoking = false →
        (s.peer p).numLocalRequests = 0 → (s.peer p).writeBufferFull = false →
        (s2.peer p).interested = false) := by
  obtain ⟨s, h1, -, new, h3, h4⟩ := dispatch_total ops cl mapOrder hmap (build cl).1 0
    (build cl).2 (build_inv cl).1
  obtain ⟨-, f2, f3⟩ := interestFold_spec (visitedPeers cl) s
  rw [← interestPhase_eq_foldl] at f2 f3
  have hcond : ∀ p, idleCondition (s.peer p) = true ↔
      ((s.peer p).peerChoking = false ∧ (s.peer p).numLocalRequests = 0 ∧
        (s.peer p).writeBufferFull = false) := by
    intro p
    unfold idleCondition
    cases (s.peer p).peerChoking <;> cases (s.peer p).writeBufferFull <;> simp
  have hold : ∀ p v, Event.setInterested p v ∉ s.log := by
    intro p v hmem
    rw [h3] at hmem
    rcases List.mem_append.1 hmem with h | h
    · obtain ⟨c, hc⟩ := (build_inv cl).2 _ h
      exact absurd hc (by simp)
    · exact absurd (h4 _ h) (by simp [Event.isInterest])
  have hiff : ∀ p v, Event.setInterested p v ∈ (interestPhase cl s).log ↔
      (v = false ∧ p ∈ visitedPeers cl ∧ (s.peer p).peerChoking = false ∧
        (s.peer p).numLocalRequests = 0 ∧ (s.peer p).writeBufferFull = false) := by
    intro p v
    rw [f2, List.mem_append, List.mem_map]
    constructor
    · rintro (h | ⟨q, hq, he⟩)
      · exact absurd h (hold p v)
      · rw [List.mem_filter] at hq
        injection he with e1 e2
        subst e1
        exact ⟨e2.symm, hq.1, (hcond q).1 hq.2⟩
    · rintro ⟨rfl, hp, hc⟩
      exact Or.inr ⟨p, List.mem_filter.2 ⟨hp, (hcond p).2 hc⟩, rfl⟩
  refine ⟨s, interestPhase cl s, h1, by unfold doRequests; rw [h1], f2, hiff,
    fun p hp => ⟨fun v hv => hp ((hiff p v).1 hv).2.2.2.1, ?_⟩, fun p hp c1 c2 c3 => ?_⟩
  · have hn : ¬ idleCondition (s.peer p) = true := fun h => hp ((hcond p).1 h).2.1
    rw [f3 p]
    simp [hn]
  · rw [f3 p]
    simp [hp, (hcond p).2 ⟨c1, c2, c3⟩, setInterested]

/-- Witness of C8: the pass over the three-peer client when no peer accepts a
request. -/
theorem interest_turn_off_witness :
    ∃ s s2, dispatch onlyFirstOps threePeerClient (fun _ c => c) 0 (build threePeerClient).1
        (build threePeerClient).2 = some s ∧
      doRequests onlyFirstOps (fun _ c => c) threePeerClient = some s2 ∧
      s2.log = s.log ++ ((visitedPeers threePeerClient).filter fun p =>
        idleCondition (s.peer p)).map (fun p => Event.setInterested p false) ∧
      (∀ p v, Event.setInterested p v ∈ s2.log ↔
        (v = false ∧ p ∈ visitedPeers threePeerClient ∧ (s.peer p).peerChoking = false ∧
          (s.peer p).numLocalRequests = 0 ∧ (s.peer p).writeBufferFull = false)) ∧
      (∀ p, (s.peer p).numLocalRequests ≠ 0 →
        (∀ v, Event.setInterested p v ∉ s2.log) ∧
          (s2.peer p).interested = (s.peer p).interested) ∧
      (∀ p ∈ visitedPeers threePeerClient, (s.peer p).peerChoking = false →
        (s.peer p).numLocalRequests = 0 → (s.peer p).writeBufferFull = false →
        (s2.peer p).interested = false) :=
  interest_turn_off onlyFirstOps (fun _ c => c) threePeerClient (fun _ _ => List.Perm.refl _)

/-! ## Building and editing the request order -/

theorem foldl_append_singleton {α β : Type} (f : β → α) (l : List β) (init : List α) :
    l.foldl (fun me i => me ++ [f i]) init = init ++ l.map f := by
  induction l generalizing init with
  | nil => simp
  | cons x l ih => simp [ih]

theorem addPieces_eq (pieces : List pieceRequestOrderPiece) (t n : Nat) :
    addPieces pieces t n = pieces ++ (List.range n).map (freshRecord t) :=
  foldl_append_singleton (freshRecord t) (List.range n) pieces

theorem buildTorrent_fst (cl : Client) (b : List pieceRequestOrderPiece × State) (t : Nat) :
    (buildTorrent cl b t).1 =
      b.1 ++ (if (cl.torrent t).haveInfo = true
        then (List.range (cl.torrent t).numPieces).map (freshRecord t) else []) := by
  unfold buildTorrent
  by_cases h : (cl.torrent t).haveInfo = true
  · simp only [h, if_true]
    exact addPieces_eq _ _ _
  · simp [h]

theorem buildFold_fst (cl : Client) (ts : List Nat) (b : List pieceRequestOrderPiece × State) :
    (ts.foldl (buildTorrent cl) b).1 =
      b.1 ++ ts.flatMap fun t =>
        if (cl.torrent t).haveInfo = true
          then (List.range (cl.torrent t).numPieces).map (freshRecord t) else [] := by
  induction ts generalizing b with
  | nil => simp
  | cons t ts ih =>
    simp only [List.foldl_cons, List.flatMap_cons]
    rw [ih, buildTorrent_fst, List.append_assoc]

theorem recordsOf_append (t i : Nat) (l1 l2 : List pieceRequestOrderPiece) :
    recordsOf t i (l1 ++ l2) = recordsOf t i l1 + recordsOf t i l2 := by
  simp [recordsOf, List.countP_append]

theorem recordsOf_fresh (t i t1 n : Nat) :
    recordsOf t i ((List.range n).map (freshRecord t1)) =
      if t1 = t ∧ i < n then 1 else 0 := by
  unfold recordsOf
  rw [List.countP_map]
  by_cases ht : t1 = t
  · subst ht
    have hfun : ((fun p : pieceRequestOrderPiece => p.t == t1 && p.index == i) ∘
        freshRecord t1) = fun j => j == i := by
      funext j
      simp [freshRecord]
    rw [hfun]
    have hc : (List.range n).countP (fun j => j == i) = (List.range n).count i := by
      rw [List.count_eq_countP]
    rw [hc]
    by_cases hi : i < n
    · rw [List.count_eq_one_of_mem (List.nodup_range n) (List.mem_range.2 hi)]
      simp [hi]
    · rw [List.count_eq_zero_of_not_mem (fun h => hi (List.mem_range.1 h))]
      simp [hi]
  · have hfun : ((fun p : pieceRequestOrderPiece => p.t == t && p.index == i) ∘
        freshRecord t1) = fun _ => false := by
      funext j
      simp [freshRecord, ht]
    rw [hfun]
    simp [ht]

theorem recordsOf_flatMap (cl : Client) (t i : Nat) (ts : List Nat) (hnd : ts.Nodup) :
    recordsOf t i (ts.flatMap fun t1 =>
        if (cl.torrent t1).haveInfo = true
          then (List.range (cl.torrent t1).numPieces).map (freshRecord t1) else []) =
      if t ∈ ts ∧ (cl.torrent t).haveInfo = true ∧ i < (cl.torrent t).numPieces then 1
      else 0 := by
  induction ts with
  | nil => simp [recordsOf]
  | cons t1 ts ih =>
    rw [List.nodup_cons] at hnd
    rw [List.flatMap_cons, recordsOf_append, ih hnd.2]
    by_cases h1 : t1 = t
    · subst h1
      have hmem : t1 ∉ ts := hnd.1
      by_cases hinfo : (cl.torrent t1).haveInfo = true
      · rw [if_pos hinfo, recordsOf_fresh]
        by_cases hi : i < (cl.torrent t1).numPieces <;> simp [hmem, hinfo, hi]
      · rw [if_neg hinfo]
        simp [recordsOf, hmem, hinfo]
    · have h2 : ¬ t = t1 := fun h => h1 h.symm
      by_cases hinfo : (cl.torrent t1).haveInfo = true
      · rw [if_pos hinfo, recordsOf_fresh]
        simp [h1, h2]
      · rw [if_neg hinfo]
        simp [recordsOf, h2]

theorem recordsOf_update (cl : Client) (t i : Nat) (l : List pieceRequestOrderPiece) :
    recordsOf t i (update cl l) = recordsOf t i l := by
  unfold recordsOf update
  rw [List.countP_map]
  rfl

theorem build_fst_perm (cl : Client) :
    (build cl).1.Perm (update cl (cl.torrents.flatMap fun t =>
      if (cl.torrent t).haveInfo = true
        then (List.range (cl.torrent t).numPieces).map (freshRecord t) else [])) := by
  have h := buildFold_fst cl cl.torrents ([], initState cl)
  simp only [List.nil_append] at h
  unfold build
  simp only
  rw [h]
  exact SliceStable_perm less _

/-- C14: when the torrents of the client are distinct, the request order after the
build step holds exactly one record for each piece `(t, i)` with `t` a torrent of the
client whose info is loaded and `i < numPieces`, and none for any other pair, so none
for a torrent without info; `addPieces(t, n)` keeps the records already there and
appends the `n` records `(t, 0)`, ..., `(t, n-1)` in index order. -/
theorem request_order_built :
    (∀ cl : Client, cl.torrents.Nodup →
      (∀ t i, recordsOf t i (build cl).1 =
        if t ∈ cl.torrents ∧ (cl.torrent t).haveInfo = true ∧ i < (cl.torrent t).numPieces
        then 1 else 0) ∧
      (∀ p ∈ (build cl).1, p.t ∈ cl.torrents ∧ (cl.torrent p.t).haveInfo = true ∧
        p.index < (cl.torrent p.t).numPieces)) ∧
    (∀ (pieces : List pieceRequestOrderPiece) (t n : Nat),
      addPieces pieces t n = pieces ++ (List.range n).map (freshRecord t)) := by
  refine ⟨fun cl hnd => ?_, addPieces_eq⟩
  have hcount : ∀ t i, recordsOf t i (build cl).1 =
      if t ∈ cl.torrents ∧ (cl.torrent t).haveInfo = true ∧ i < (cl.torrent t).numPieces
      then 1 else 0 := by
    intro t i
    have h1 : recordsOf t i (build cl).1 = recordsOf t i (update cl (cl.torrents.flatMap fun t =>
        if (cl.torrent t).haveInfo = true
          then (List.range (cl.torrent t).numPieces).map (freshRecord t) else [])) :=
      (build_fst_perm cl).countP_eq _
    rw [h1, recordsOf_update, recordsOf_flatMap cl t i cl.torrents hnd]
  refine ⟨hcount, fun p hp => ?_⟩
  have hpos : 0 < recordsOf p.t p.index (build cl).1 := by
    unfold recordsOf
    rw [List.countP_pos_iff]
    exact ⟨p, hp, by simp⟩
  rw [hcount] at hpos
  by_contra hneg
  rw [if_neg hneg] at hpos
  exact absurd hpos (by decide)

/-- Witness of C14: the two pieces of the one torrent of the example client. -/
theorem request_order_built_witness :
    recordsOf 0 1 (build tightBudgetClient).1 = 1 ∧
    recordsOf 0 2 (build tightBudgetClient).1 = 0 ∧
    addPieces [d2Piece] 1 2 = [d2Piece] ++ (List.range 2).map (freshRecord 1) :=
  ⟨((request_order_built.1 tightBudgetClient (by decide)).1 0 1).trans (by decide),
    ((request_order_built.1 tightBudgetClient (by decide)).1 0 2).trans (by decide),
    request_order_built.2 [d2Piece] 1 2⟩

theorem foldl_keep (t : Nat) (pieces init : List pieceRequestOrderPiece) :
    pieces.foldl (fun newPieces p => if (p.t != t) = true then newPieces ++ [p] else newPieces)
        init =
      init ++ pieces.filter fun p => p.t != t := by
  induction pieces generalizing init with
  | nil => simp
  | cons p pieces ih =>
    simp only [List.foldl_cons, List.filter_cons]
    rw [ih]
    split <;> simp

theorem removePieces_of_le (pieces : List pieceRequestOrderPiece) (t numPieces : Nat)
    (h : numPieces ≤ pieces.length) :
    removePieces pieces t numPieces = some (pieces.filter fun p => p.t != t) := by
  unfold removePieces
  rw [if_neg (by omega), foldl_keep]
  simp

theorem removePieces_addPieces (pieces : List pieceRequestOrderPiece) (t n : Nat)
    (h : ∀ p ∈ pieces, p.t ≠ t) : removePieces (addPieces pieces t n) t n = some pieces := by
  rw [removePieces_of_le _ _ _ (by rw [addPieces_eq]; simp), addPieces_eq, List.filter_append]
  have h1 : pieces.filter (fun p => p.t != t) = pieces :=
    List.filter_eq_self.2 fun p hp => by simpa using h p hp
  have h2 : ((List.range n).map (freshRecord t)).filter (fun p => p.t != t) = [] :=
    List.filter_eq_nil_iff.2 fun p hp => by
      rw [List.mem_map] at hp
      obtain ⟨i, -, rfl⟩ := hp
      simp [freshRecord]
  rw [h1, h2, List.append_nil]

/-- C15 (the code misses it): `removePieces` makes its new slice with capacity
`len(me.pieces) - t.numPieces()`. On a request order holding only the one record of
download 2, removing download 1, which has two pieces, asks for capacity -1 and
panics, where the claim has `removePieces` complete and leave the record of
download 2; the same on the empty order. When the order holds at least
`t.numPieces()` records the call completes: after `addPieces(1, 2)` it restores the
order. -/
theorem removePieces_panics_on_short_order :
    removePieces [d2Piece] 1 2 = none ∧
    removePieces [] 1 2 = none ∧
    [d2Piece].filter (fun p => p.t != 1) = [d2Piece] ∧
    removePieces (addPieces [d2Piece] 1 2) 1 2 = some [d2Piece] := by
  decide

/-- C16 (the code misses it): in a pass over a client whose only peer is closed, not
choking, without outstanding request and with room in its write buffer, the peer is
left out of the ranked list, yet the last loop calls `setInterested(false)` on it and
clears its interest flag. -/
theorem closed_peer_interest_cleared :
    (closedPeerClient.peer 10).closed = true ∧
    (doRequests oneSlotOps (fun _ c => c) closedPeerClient).map (fun s => s.allPeers 0) =
      some [] ∧
    (doRequests oneSlotOps (fun _ c => c) closedPeerClient).map (fun s => s.log) =
      some [Event.setInterested 10 false] ∧
    (doRequests oneSlotOps (fun _ c => c) closedPeerClient).map
      (fun s => (s.peer 10).interested) = some false := by
  decide

/-- C17: a piece flagged by `ignorePieceForRequests` is skipped before the admission:
the state after the piece is the state before it (no request, no cancel, same peer
lists, same budget counters), and the piece loop goes on with the following records
from that state. -/
theorem ignored_piece_skipped (ops : PeerOps) (cl : Client) (order : List Nat → List Nat)
    (p : pieceRequestOrderPiece) (s : State)
    (hign : ((cl.torrent p.t).piece p.index).ignorePieceForRequests = true) :
    processPiece ops cl order p s = some s ∧
    ∀ (mapOrder : Nat → List Nat → List Nat) (k : Nat) (rest : List pieceRequestOrderPiece),
      mapOrder k = order →
      dispatch ops cl mapOrder k (p :: rest) s = dispatch ops cl mapOrder (k + 1) rest s := by
  have h : processPiece ops cl order p s = some s := by
    unfold processPiece
    rw [if_pos hign]
  refine ⟨h, fun mapOrder k rest hk => ?_⟩
  rw [dispatch, hk, h]

/-- Witness of C17: the ignored piece of 32768 bytes would fit the 40000 bytes left,
but it is skipped; in the whole pass the only reservation and the only request are for
the other piece. -/
theorem ignored_piece_skipped_witness :
    processPiece oneSlotOps ignoringClient (fun c => c)
        { t := 0, index := 0, prio := 2, partialFlag := false, availability := 1 }
        (build ignoringClient).2 = some (build ignoringClient).2 ∧
    (doRequests oneSlotOps (fun _ c => c) ignoringClient).map
        (fun s => (s.storageLeft 7, s.allPeers 0, s.log)) =
      some (some (some 23616), [10],
        [Event.capacity 7, Event.reserve 0 1 16384,
          Event.request 10 { Index := 1, chunk := chunk0 } true]) :=
  ⟨(ignored_piece_skipped oneSlotOps ignoringClient (fun c => c)
      { t := 0, index := 0, prio := 2, partialFlag := false, availability := 1 }
      (build ignoringClient).2 (by decide)).1,
    by decide⟩

/-! ## Pieces without budget, chunks nobody accepts -/

/-- C12: a piece that is not ignored and whose torrent has no storage capacity
configured, or whose capacity function returned nil, is admitted whatever its
length: the step completes, the admission is recorded, only peer calls follow, and
no budget counter of any identity changes. -/
theorem unlimited_piece_admitted (ops : PeerOps) (cl : Client) (order : List Nat → List Nat)
    (p : pieceRequestOrderPiece) (s : State)
    (hign : ((cl.torrent p.t).piece p.index).ignorePieceForRequests = false)
    (hcap : (cl.torrent p.t).Capacity = none ∨
      ∃ c, (cl.torrent p.t).Capacity = some c ∧ s.storageLeft c = some none)
    (hc : s.contributed = []) (horder : ∀ l, (order l).Perm l) :
    ∃ s2, processPiece ops cl order p s = some s2 ∧ s2.storageLeft = s.storageLeft ∧
      ∃ new, s2.log =
          s.log ++ Event.reserve p.t p.index ((cl.torrent p.t).piece p.index).length :: new ∧
        ∀ e ∈ new, e.isPeerCall = true := by
  have hlook : storageLookup s (cl.torrent p.t).Capacity = none := by
    rcases hcap with h | ⟨c, h1, h2⟩
    · rw [h]
      rfl
    · rw [h1]
      simp [storageLookup, h2]
  have hadm := admission_unlimited cl p s hlook
  obtain ⟨s2, h1, -, h3, -, -, new, h6, h7⟩ := requestAndRotate_spec ops order p (s.allPeers p.t)
    ((cl.torrent p.t).piece p.index).undirtied
    { s with
      log := s.log ++ [Event.reserve p.t p.index ((cl.torrent p.t).piece p.index).length] }
    hc horder
  refine ⟨s2, ?_, h3, new, ?_, h7⟩
  · unfold processPiece
    rw [hign, hadm]
    exact h1
  · rw [h6]
    simp

/-- Witness of C12: the piece of the torrent without storage capacity. -/
theorem unlimited_piece_admitted_witness :
    ∃ s2, processPiece oneSlotOps threePeerClient (fun c => c)
        { t := 0, index := 0, prio := 1, partialFlag := false, availability := 1 }
        (build threePeerClient).2 = some s2 ∧
      s2.storageLeft = (build threePeerClient).2.storageLeft ∧
      ∃ new, s2.log = (build threePeerClient).2.log ++ Event.reserve 0 0 32768 :: new ∧
        ∀ e ∈ new, e.isPeerCall = true :=
  unlimited_piece_admitted oneSlotOps threePeerClient (fun c => c)
    { t := 0, index := 0, prio := 1, partialFlag := false, availability := 1 }
    (build threePeerClient).2 (by decide) (Or.inl (by decide)) (by decide)
    (fun _ => List.Perm.refl _)

theorem walkPeers_log_ext (ops : PeerOps) (req : Request) (peers : List Nat) (i : Nat)
    (b : Bool) (s : State) : ∃ new, (walkPeers ops req peers i b s).log = s.log ++ new := by
  induction peers generalizing i b s with
  | nil => exact ⟨[], by simp [walkPeers]⟩
  | cons p rest ih =>
    unfold walkPeers
    split
    · obtain ⟨new, h⟩ := ih (i + 1) true
        { s with
          peer := Function.update s.peer p (ops.cancel p (s.peer p) req)
          log := s.log ++ [Event.cancel p req] }
      exact ⟨Event.cancel p req :: new, by rw [h]; simp⟩
    · obtain ⟨new, h⟩ := ih (i + 1) (ops.request p (s.peer p) req).2
        { s with
          peer := Function.update s.peer p (ops.request p (s.peer p) req).1
          log := s.log ++ [Event.request p req (ops.request p (s.peer p) req).2]
          contributed :=
            if (ops.request p (s.peer p) req).2 = true then insertContributed s.contributed i
            else s.contributed }
      exact ⟨Event.request p req (ops.request p (s.peer p) req).2 :: new, by rw [h]; simp⟩

theorem walkPeers_no_accept (ops : PeerOps) (req : Request) (peers : List Nat) (i : Nat)
    (s : State) (new : List Event)
    (hlog : (walkPeers ops req peers i false s).log = s.log ++ new)
    (hno : ∀ e ∈ new, e.isAccepted = false) :
    (walkPeers ops req peers i false s).contributed = s.contributed ∧
    new = peers.map (fun p => Event.request p req false) := by
  induction peers generalizing i s new with
  | nil =>
    simp only [walkPeers] at hlog
    exact ⟨rfl, by simpa using hlog⟩
  | cons p rest ih =>
    unfold walkPeers at hlog ⊢
    simp only [Bool.false_eq_true, if_false] at hlog ⊢
    obtain ⟨new1, h1⟩ := walkPeers_log_ext ops req rest (i + 1) (ops.request p (s.peer p) req).2
      { s with
        peer := Function.update s.peer p (ops.request p (s.peer p) req).1
        log := s.log ++ [Event.request p req (ops.request p (s.peer p) req).2]
        contributed :=
          if (ops.request p (s.peer p) req).2 = true then insertContributed s.contributed i
          else s.contributed }
    have hnew : new = Event.request p req (ops.request p (s.peer p) req).2 :: new1 := by
      have h2 := hlog.symm.trans h1
      simp only [List.append_assoc, List.singleton_append] at h2
      exact List.append_cancel_left h2
    have hr : (ops.request p (s.peer p) req).2 = false := by
      have := hno (Event.request p req (ops.request p (s.peer p) req).2)
        (by rw [hnew]; exact List.mem_cons_self _ _)
      simpa [Event.isAccepted] using this
    rw [hr] at h1 hnew ⊢
    simp only [Bool.false_eq_true, if_false] at h1 ⊢
    obtain ⟨g1, g2⟩ := ih (i + 1)
      { s with
        peer := Function.update s.peer p (ops.request p (s.peer p) req).1
        log := s.log ++ [Event.request p req false]
        contributed := s.contributed } new1 h1
      (fun e he => hno e (by rw [hnew]; exact List.mem_cons_of_mem _ he))
    exact ⟨g1, by rw [hnew, g2]; rfl⟩

theorem chunkLoop_log_ext (ops : PeerOps) (index : Nat) (peers : List Nat)
    (chunks : List ChunkSpec) (s : State) :
    ∃ new, (chunks.foldl (requestChunk ops index peers) s).log = s.log ++ new := by
  induction chunks generalizing s with
  | nil => exact ⟨[], by simp⟩
  | cons c chunks ih =>
    obtain ⟨new1, h1⟩ := walkPeers_log_ext ops { Index := index, chunk := c } peers 0 false s
    obtain ⟨new2, h2⟩ := ih (requestChunk ops index peers s c)
    refine ⟨new1 ++ new2, ?_⟩
    simp only [List.foldl_cons]
    rw [h2]
    unfold requestChunk
    rw [h1, List.append_assoc]

theorem chunkLoop_no_accept (ops : PeerOps) (index : Nat) (peers : List Nat)
    (chunks : List ChunkSpec) (s : State) (new : List Event)
    (hlog : (chunks.foldl (requestChunk ops index peers) s).log = s.log ++ new)
    (hno : ∀ e ∈ new, e.isAccepted = false) :
    (chunks.foldl (requestChunk ops index peers) s).contributed = s.contributed ∧
    new = chunks.flatMap fun c =>
      peers.map fun p => Event.request p { Index := index, chunk := c } false := by
  induction chunks generalizing s new with
  | nil =>
    simp only [List.foldl_nil] at hlog
    exact ⟨rfl, by simpa using hlog⟩
  | cons c chunks ih =>
    simp only [List.foldl_cons] at hlog ⊢
    obtain ⟨new1, h1⟩ := walkPeers_log_ext ops { Index := index, chunk := c } peers 0 false s
    obtain ⟨new2, h2⟩ := chunkLoop_log_ext ops index peers chunks (requestChunk ops index peers s c)
    have h1r : (requestChunk ops index peers s c).log = s.log ++ new1 := h1
    have hnew : new = new1 ++ new2 := by
      have h3 := hlog.symm.trans h2
      rw [h1r, List.append_assoc] at h3
      exact List.append_cancel_left h3
    obtain ⟨w1, w2⟩ := walkPeers_no_accept ops { Index := index, chunk := c } peers 0 s new1 h1
      (fun e he => hno e (by rw [hnew]; exact List.mem_append_left _ he))
    obtain ⟨g1, g2⟩ := ih (requestChunk ops index peers s c) new2 h2
      (fun e he => hno e (by rw [hnew]; exact List.mem_append_right _ he))
    refine ⟨g1.trans w1, ?_⟩
    rw [hnew, w2, g2, List.flatMap_cons]

theorem requestAndRotate_some (ops : PeerOps) (order : List Nat → List Nat)
    (p : pieceRequestOrderPiece) (peers : List Nat) (chunks : List ChunkSpec) (s1 s2 : State)
    (h : requestAndRotate ops order p peers chunks s1 = some s2) :
    ∃ r, rotate peers (order (chunks.foldl (requestChunk ops p.index peers) s1).contributed) =
        some r ∧
      s2 = { chunks.foldl (requestChunk ops p.index peers) s1 with
        allPeers :=
          Function.update (chunks.foldl (requestChunk ops p.index peers) s1).allPeers p.t r
        contributed := [] } := by
  unfold requestAndRotate at h
  split at h
  · exact absurd h (by simp)
  · rename_i r hr
    exact ⟨r, hr, (Option.some.inj h).symm⟩

theorem cancelsTo_eq_zero (q : Nat) (l : List Event)
    (h : ∀ e ∈ l, e.cancelledPeer = none) : cancelsTo q l = 0 := by
  unfold cancelsTo
  rw [List.countP_eq_zero]
  intro e he
  simp [h e he]

/-- C18: when no peer accepts a chunk (no `request` call of the walk returns without
error; the list may be empty), the walk asks each peer once, in order, issues no
cancel and records no contributor, and the chunk loop goes on. When this holds for
every chunk of a piece, the step completes with every peer list as it was before the
piece, no cancel issued, and, for an admitted piece, every chunk offered to every
peer. -/
theorem refused_chunks_leave_peers :
    (∀ (ops : PeerOps) (index : Nat) (chunk : ChunkSpec) (peers : List Nat) (s : State),
      (∀ e ∈ (requestChunk ops index peers s chunk).log.drop s.log.length,
        e.isAccepted = false) →
      (requestChunk ops index peers s chunk).log =
        s.log ++ peers.map (fun p => Event.request p { Index := index, chunk := chunk } false) ∧
      (requestChunk ops index peers s chunk).contributed = s.contributed ∧
      ∀ q, cancelsTo q ((requestChunk ops index peers s chunk).log.drop s.log.length) = 0) ∧
    (∀ (ops : PeerOps) (cl : Client) (order : List Nat → List Nat)
        (p : pieceRequestOrderPiece) (s : State),
      s.contributed = [] → (∀ l, (order l).Perm l) →
      ∃ s2, processPiece ops cl order p s = some s2 ∧
        ((∀ e ∈ s2.log.drop s.log.length, e.isAccepted = false) →
          s2.allPeers = s.allPeers ∧
          (∀ q, cancelsTo q (s2.log.drop s.log.length) = 0) ∧
          (((cl.torrent p.t).piece p.index).ignorePieceForRequests = false →
            (admission cl p s).isSome = true →
            s2.log = s.log ++
              Event.reserve p.t p.index ((cl.torrent p.t).piece p.index).length ::
                ((cl.torrent p.t).piece p.index).undirtied.flatMap fun c =>
                  (s.allPeers p.t).map fun p1 =>
                    Event.request p1 { Index := p.index, chunk := c } false))) := by
  constructor
  · intro ops index chunk peers s hno
    obtain ⟨new, h⟩ := walkPeers_log_ext ops { Index := index, chunk := chunk } peers 0 false s
    unfold requestChunk at hno ⊢
    rw [h, List.drop_left] at hno
    obtain ⟨w1, w2⟩ := walkPeers_no_accept ops { Index := index, chunk := chunk } peers 0 s new
      h hno
    rw [h, List.drop_left]
    refine ⟨by rw [w2], w1, fun q => cancelsTo_eq_zero q new fun e he => ?_⟩
    rw [w2, List.mem_map] at he
    obtain ⟨p1, -, rfl⟩ := he
    rfl
  · intro ops cl order p s hc horder
    unfold processPiece
    split
    · rename_i hign
      refine ⟨s, rfl, fun _ => ⟨rfl, fun q => by simp [cancelsTo], fun h => ?_⟩⟩
      rw [hign] at h
      exact absurd h (by simp)
    · cases hadm : admission cl p s with
      | none =>
        exact ⟨s, rfl, fun _ => ⟨rfl, fun q => by simp [cancelsTo], fun _ h => by simp at h⟩⟩
      | some s1 =>
        obtain ⟨a1, a2, -, a4⟩ := admission_some cl p s s1 hadm
        obtain ⟨s2, h1, -⟩ := requestAndRotate_spec ops order p (s.allPeers p.t)
          ((cl.torrent p.t).piece p.index).undirtied s1 (a1.trans hc) horder
        refine ⟨s2, h1, fun hno => ?_⟩
        obtain ⟨r, hr, hs2⟩ := requestAndRotate_some ops order p (s.allPeers p.t)
          ((cl.torrent p.t).piece p.index).undirtied s1 s2 h1
        obtain ⟨new, hnew⟩ := chunkLoop_log_ext ops p.index (s.allPeers p.t)
          ((cl.torrent p.t).piece p.index).undirtied s1
        have hlog2 : s2.log = s.log ++
            Event.reserve p.t p.index ((cl.torrent p.t).piece p.index).length :: new := by
          rw [hs2]
          simp only
          rw [hnew, a4]
          simp
        rw [hlog2, List.drop_left] at hno ⊢
        obtain ⟨g1, g2⟩ := chunkLoop_no_accept ops p.index (s.allPeers p.t)
          ((cl.torrent p.t).piece p.index).undirtied s1 new hnew
          (fun e he => hno e (List.mem_cons_of_mem _ he))
        obtain ⟨-, -, f1, -⟩ := chunkLoop_inv ops p.index (s.allPeers p.t)
          ((cl.torrent p.t).piece p.index).undirtied s1
          (by rw [a1, hc]; exact List.nodup_nil) (by rw [a1, hc]; simp)
        have hnil : order [] = [] := List.perm_nil.1 (horder [])
        rw [g1, a1, hc, hnil] at hr
        have hr1 : r = s.allPeers p.t := by
          have : rotate (s.allPeers p.t) [] = some (s.allPeers p.t) := rfl
          rw [this] at hr
          exact (Option.some.inj hr).symm
        refine ⟨?_, fun q => cancelsTo_eq_zero q _ fun e he => ?_, fun _ _ => by rw [g2]⟩
        · rw [hs2]
          simp only
          rw [f1, a2, hr1]
          exact Function.update_eq_self _ _
        · rcases List.mem_cons.1 he with rfl | he
          · rfl
          · rw [g2, List.mem_flatMap] at he
            obtain ⟨c, -, hc1⟩ := he
            rw [List.mem_map] at hc1
            obtain ⟨p1, -, rfl⟩ := hc1
            rfl

/-- Witness of C18: the three peers when none of them accepts: each of the two
chunks is offered to the three peers in ranked order, and the ranked list stays. -/
theorem refused_chunks_leave_peers_witness :
    (requestChunk onlyFirstOps 0 [30, 20, 10] idleState chunk0).log =
      idleState.log ++ [30, 20, 10].map
        (fun p => Event.request p { Index := 0, chunk := chunk0 } false) ∧
    (doRequests onlyFirstOps (fun _ c => c) threePeerClient).map
        (fun s => (s.allPeers 0, s.log.filter Event.isPeerCall)) =
      some ([30, 20, 10],
        [Event.request 30 { Index := 0, chunk := chunk0 } false,
          Event.request 20 { Index := 0, chunk := chunk0 } false,
          Event.request 10 { Index := 0, chunk := chunk0 } false,
          Event.request 30 { Index := 0, chunk := chunk1 } false,
          Event.request 20 { Index := 0, chunk := chunk1 } false,
          Event.request 10 { Index := 0, chunk := chunk1 } false]) :=
  ⟨(refused_chunks_leave_peers.1 onlyFirstOps 0 chunk0 [30, 20, 10] idleState (by decide)).1,
    by decide⟩

/-! ## The ranked lists over a pass -/

/-- Counterexample to C19 as stated: with the peers 10, 20, 30, 40 and the positions
0 and 1 contributing, ranging over the map in the order 0, 1 yields 40, 30, 20, 10 and
in the order 1, 0 yields 30, 40, 10, 20. -/
theorem rotation_depends_on_order :
    [1, 0].Perm [0, 1] ∧
    rotate [10, 20, 30, 40] [0, 1] = some [40, 30, 20, 10] ∧
    rotate [10, 20, 30, 40] [1, 0] = some [30, 40, 10, 20] ∧
    rotate [10, 20, 30, 40] [0, 1] ≠ rotate [10, 20, 30, 40] [1, 0] :=
  ⟨List.Perm.swap 0 1 [], by decide, by decide, by decide⟩

/-- C19 (amended): for a fixed peer list and a fixed set of contributing positions,
the rotation completes for every order in which the set is enumerated, and any two
orders yield permutations of one another that hold the same peer at every
non-contributing position below `len(peers) - len(contributed)`. -/
theorem rotation_orders_agree_in_front (peers order1 order2 : List Nat)
    (hnd : order1.Nodup) (hb : ∀ i ∈ order1, i < peers.length)
    (hperm : order2.Perm order1) :
    ∃ r1 r2, rotate peers order1 = some r1 ∧ rotate peers order2 = some r2 ∧ r1.Perm r2 ∧
      ∀ p : Nat, p + order1.length < peers.length → p ∉ order1 → r1[p]? = r2[p]? := by
  obtain ⟨r1, a1, -, a3, a4⟩ := rotate_spec peers order1 hb
    (length_le_of_nodup_of_lt order1 peers.length hnd hb)
  have hb2 : ∀ i ∈ order2, i < peers.length := fun i hi => hb i (hperm.mem_iff.1 hi)
  obtain ⟨r2, b1, -, b3, b4⟩ := rotate_spec peers order2 hb2
    (length_le_of_nodup_of_lt order2 peers.length (hperm.nodup_iff.2 hnd) hb2)
  refine ⟨r1, r2, a1, b1, a3.trans b3.symm, fun p hp hmem => ?_⟩
  rw [a4 p hp hmem, b4 p (by rw [hperm.length_eq]; exact hp)
    (fun h => hmem (hperm.mem_iff.1 h))]

/-- Witness of C19 (amended): five peers, positions 1 and 3 contributing, in both
orders. -/
theorem rotation_orders_agree_in_front_witness :
    ∃ r1 r2, rotate [10, 20, 30, 40, 50] [1, 3] = some r1 ∧
      rotate [10, 20, 30, 40, 50] [3, 1] = some r2 ∧ r1.Perm r2 ∧
      ∀ p : Nat, p + [1, 3].length < [10, 20, 30, 40, 50].length → p ∉ [1, 3] →
        r1[p]? = r2[p]? :=
  rotation_orders_agree_in_front [10, 20, 30, 40, 50] [1, 3] [3, 1] (by decide) (by decide)
    (List.Perm.swap 1 3 [])

theorem processPiece_perm (ops : PeerOps) (cl : Client) (order : List Nat → List Nat)
    (p : pieceRequestOrderPiece) (s : State) (horder : ∀ l, (order l).Perm l)
    (hc : s.contributed = []) :
    ∃ s2, processPiece ops cl order p s = some s2 ∧ s2.contributed = [] ∧
      ∀ t, (s2.allPeers t).Perm (s.allPeers t) := by
  unfold processPiece
  split
  · exact ⟨s, rfl, hc, fun _ => List.Perm.refl _⟩
  · cases hadm : admission cl p s with
    | none => exact ⟨s, rfl, hc, fun _ => List.Perm.refl _⟩
    | some s1 =>
      obtain ⟨a1, a2, -, -⟩ := admission_some cl p s s1 hadm
      obtain ⟨s2, h1, h2, -, h4, h5, -⟩ := requestAndRotate_spec ops order p
        (s.allPeers p.t) ((cl.torrent p.t).piece p.index).undirtied s1 (a1.trans hc) horder
      refine ⟨s2, h1, h2, fun t => ?_⟩
      by_cases ht : t = p.t
      · rw [ht]
        exact h4
      · rw [h5 t ht, a2]

theorem dispatch_perm (ops : PeerOps) (cl : Client) (mapOrder : Nat → List Nat → List Nat)
    (hmap : ∀ k l, (mapOrder k l).Perm l) (pieces : List pieceRequestOrderPiece) (k : Nat)
    (s : State) (hc : s.contributed = []) :
    ∃ s2, dispatch ops cl mapOrder k pieces s = some s2 ∧ s2.contributed = [] ∧
      ∀ t, (s2.allPeers t).Perm (s.allPeers t) := by
  induction pieces generalizing k s with
  | nil => exact ⟨s, rfl, hc, fun _ => List.Perm.refl _⟩
  | cons p rest ih =>
    obtain ⟨s1, h1, h2, h3⟩ := processPiece_perm ops cl (mapOrder k) p s (hmap k) hc
    obtain ⟨s2, g1, g2, g3⟩ := ih (k + 1) s1 h2
    exact ⟨s2, by rw [dispatch, h1]; exact g1, g2, fun t => (g3 t).trans (h3 t)⟩

theorem interestPhase_allPeers (cl : Client) (s : State) :
    (interestPhase cl s).allPeers = s.allPeers := by
  rw [interestPhase_eq_foldl]
  generalize visitedPeers cl = l
  induction l generalizing s with
  | nil => rfl
  | cons p l ih =>
    simp only [List.foldl_cons]
    rw [ih]
    unfold interestPeer
    split <;> rfl

/-- C20: the rotation, for every set of contributing positions of the list and every
order in which it is enumerated, completes without indexing outside the list and
yields a permutation of the list. Hence in a pass, after any number of records of the
request order, the set `contributed` is empty again and every ranked peer list is a
permutation of the list built at the start; the pass completes and the same holds
at its end. -/
theorem ranked_lists_stay_permutations :
    (∀ peers order : List Nat, order.Nodup → (∀ i ∈ order, i < peers.length) →
      ∃ r, rotate peers order = some r ∧ r.Perm peers ∧ r.length = peers.length) ∧
    (∀ (ops : PeerOps) (mapOrder : Nat → List Nat → List Nat) (cl : Client),
      (∀ k l, (mapOrder k l).Perm l) →
      (∀ k : Nat, ∃ sk,
        dispatch ops cl mapOrder 0 ((build cl).1.take k) (build cl).2 = some sk ∧
        sk.contributed = [] ∧ ∀ t, (sk.allPeers t).Perm ((build cl).2.allPeers t)) ∧
      ∃ s, doRequests ops mapOrder cl = some s ∧
        ∀ t, (s.allPeers t).Perm ((build cl).2.allPeers t)) := by
  constructor
  · intro peers order hnd hb
    obtain ⟨r, h1, h2, h3, -⟩ := rotate_spec peers order hb
      (length_le_of_nodup_of_lt order peers.length hnd hb)
    exact ⟨r, h1, h3, h2⟩
  · intro ops mapOrder cl hmap
    refine ⟨fun k => dispatch_perm ops cl mapOrder hmap _ 0 _ (build_inv cl).1, ?_⟩
    obtain ⟨s, h1, -, h3⟩ := dispatch_perm ops cl mapOrder hmap (build cl).1 0 (build cl).2
      (build_inv cl).1
    refine ⟨interestPhase cl s, by unfold doRequests; rw [h1], fun t => ?_⟩
    rw [interestPhase_allPeers]
    exact h3 t

/-- Witness of C20: the rotation of five peers with positions 1 and 3 contributing,
and the pass over the three-peer client, whose ranked list 30, 20, 10 ends as
10, 30, 20. -/
theorem ranked_lists_stay_permutations_witness :
    (∃ r, rotate [10, 20, 30, 40, 50] [3, 1] = some r ∧ r.Perm [10, 20, 30, 40, 50] ∧
      r.length = [10, 20, 30, 40, 50].length) ∧
    ∃ s, doRequests oneSlotOps (fun _ c => c) threePeerClient = some s ∧
      ∀ t, (s.allPeers t).Perm ((build threePeerClient).2.allPeers t) :=
  ⟨ranked_lists_stay_permutations.1 [10, 20, 30, 40, 50] [3, 1] (by decide) (by decide),
    (ranked_lists_stay_permutations.2 oneSlotOps (fun _ c => c) threePeerClient
      (fun _ _ => List.Perm.refl _)).2⟩

/-! ## The calls of the capacity functions -/

theorem capacityCalls_append (c : Nat) (l1 l2 : List Event) :
    capacityCalls c (l1 ++ l2) = capacityCalls c l1 + capacityCalls c l2 := by
  simp [capacityCalls, List.countP_append]

theorem capacityCalls_eq_zero (c : Nat) (l : List Event)
    (h : ∀ e ∈ l, e ≠ Event.capacity c) : capacityCalls c l = 0 := by
  unfold capacityCalls
  rw [List.countP_eq_zero]
  intro e he
  simpa using h e he

theorem primeStorage_calls (cl : Client) (s : State) (t : Nat)
    (hI : ∀ c, (s.storageLeft c = none ∧ capacityCalls c s.log = 0) ∨
      (s.storageLeft c = some (cl.capacity c) ∧ capacityCalls c s.log = 1)) :
    ∀ c, ((primeStorage cl s t).storageLeft c = none ∧
        capacityCalls c (primeStorage cl s t).log = 0) ∨
      ((primeStorage cl s t).storageLeft c = some (cl.capacity c) ∧
        capacityCalls c (primeStorage cl s t).log = 1) := by
  intro c
  unfold primeStorage
  split
  · exact hI c
  · rename_i c1 hcap
    split
    · exact hI c
    · rename_i hnone
      by_cases hc : c = c1
      · subst hc
        rcases hI c with ⟨-, h0⟩ | ⟨h1, -⟩
        · right
          refine ⟨by simp, ?_⟩
          simp only [capacityCalls_append, h0]
          simp [capacityCalls]
        · rw [hnone] at h1
          exact absurd h1 (by simp)
      · have hne : ¬ c1 = c := fun h => hc h.symm
        have hlog : capacityCalls c (s.log ++ [Event.capacity c1]) = capacityCalls c s.log := by
          rw [capacityCalls_append]
          simp [capacityCalls, hne]
        simp only [Function.update_noteq hc, hlog]
        exact hI c

theorem primeStorage_primed (cl : Client) (s : State) (t c : Nat) :
    ((cl.torrent t).Capacity = some c → (primeStorage cl s t).storageLeft c ≠ none) ∧
    (s.storageLeft c ≠ none → (primeStorage cl s t).storageLeft c ≠ none) ∧
    ((cl.torrent t).Capacity ≠ some c →
      (primeStorage cl s t).storageLeft c = s.storageLeft c) := by
  unfold primeStorage
  split
  · rename_i hcap
    exact ⟨fun h => by rw [hcap] at h; exact absurd h (by simp), fun h => h, fun _ => rfl⟩
  · rename_i c1 hcap
    split
    · rename_i v hv
      refine ⟨fun h => ?_, fun h => h, fun _ => rfl⟩
      rw [hcap] at h
      rw [← Option.some.inj h, hv]
      simp
    · refine ⟨fun h => ?_, fun h => ?_, fun h => ?_⟩
      · rw [hcap] at h
        rw [← Option.some.inj h]
        simp
      · by_cases hc : c = c1
        · subst hc
          simp
        · simpa [Function.update_noteq hc] using h
      · have hc : c ≠ c1 := fun e => h (by rw [hcap, e])
        simp [Function.update_noteq hc]

theorem buildTorrent_snd (cl : Client) (b : List pieceRequestOrderPiece × State) (t : Nat) :
    (buildTorrent cl b t).2.storageLeft =
        (if (cl.torrent t).haveInfo = true then primeStorage cl b.2 t else b.2).storageLeft ∧
    (buildTorrent cl b t).2.log =
        (if (cl.torrent t).haveInfo = true then primeStorage cl b.2 t else b.2).log ∧
    (buildTorrent cl b t).2.peer =
        (if (cl.torrent t).haveInfo = true then primeStorage cl b.2 t else b.2).peer := by
  unfold buildTorrent
  by_cases h : (cl.torrent t).haveInfo = true
  · simp [h]
  · simp [h]

theorem buildFold_calls (cl : Client) (ts : List Nat) (b : List pieceRequestOrderPiece × State)
    (hI : ∀ c, (b.2.storageLeft c = none ∧ capacityCalls c b.2.log = 0) ∨
      (b.2.storageLeft c = some (cl.capacity c) ∧ capacityCalls c b.2.log = 1)) :
    (∀ c, ((ts.foldl (buildTorrent cl) b).2.storageLeft c = none ∧
        capacityCalls c (ts.foldl (buildTorrent cl) b).2.log = 0) ∨
      ((ts.foldl (buildTorrent cl) b).2.storageLeft c = some (cl.capacity c) ∧
        capacityCalls c (ts.foldl (buildTorrent cl) b).2.log = 1)) ∧
    (∀ c, (b.2.storageLeft c ≠ none ∨
        ∃ t ∈ ts, (cl.torrent t).haveInfo = true ∧ (cl.torrent t).Capacity = some c) →
      (ts.foldl (buildTorrent cl) b).2.storageLeft c ≠ none) ∧
    (∀ c, b.2.storageLeft c = none →
      (¬ ∃ t ∈ ts, (cl.torrent t).haveInfo = true ∧ (cl.torrent t).Capacity = some c) →
      (ts.foldl (buildTorrent cl) b).2.storageLeft c = none) := by
  induction ts generalizing b with
  | nil =>
    refine ⟨hI, fun c h => ?_, fun c h _ => h⟩
    rcases h with h | ⟨t, ht, -⟩
    · exact h
    · exact absurd ht (List.not_mem_nil t)
  | cons t ts ih =>
    obtain ⟨e1, e2, -⟩ := buildTorrent_snd cl b t
    have hI1 : ∀ c, ((buildTorrent cl b t).2.storageLeft c = none ∧
          capacityCalls c (buildTorrent cl b t).2.log = 0) ∨
        ((buildTorrent cl b t).2.storageLeft c = some (cl.capacity c) ∧
          capacityCalls c (buildTorrent cl b t).2.log = 1) := by
      intro c
      rw [e1, e2]
      by_cases h : (cl.torrent t).haveInfo = true
      · simp only [h, if_true]
        exact primeStorage_calls cl b.2 t hI c
      · simp only [h, if_false]
        exact hI c
    obtain ⟨g1, g2, g3⟩ := ih (buildTorrent cl b t) hI1
    simp only [List.foldl_cons]
    refine ⟨g1, fun c h => g2 c ?_, fun c h hn => g3 c ?_ ?_⟩
    · rcases h with h | ⟨t1, ht1, hinfo, hcap⟩
      · left
        rw [e1]
        by_cases hi : (cl.torrent t).haveInfo = true
        · simp only [hi, if_true]
          exact (primeStorage_primed cl b.2 t c).2.1 h
        · simp only [hi, if_false]
          exact h
      · rcases List.mem_cons.1 ht1 with rfl | ht1
        · left
          rw [e1]
          simp only [hinfo, if_true]
          exact (primeStorage_primed cl b.2 t1 c).1 hcap
        · exact Or.inr ⟨t1, ht1, hinfo, hcap⟩
    · rw [e1]
      by_cases hi : (cl.torrent t).haveInfo = true
      · simp only [hi, if_true]
        rw [(primeStorage_primed cl b.2 t c).2.2
          (fun hcap => hn ⟨t, List.mem_cons_self _ _, hi, hcap⟩)]
        exact h
      · simp only [hi, if_false]
        exact h
    · exact fun ⟨t1, ht1, h1⟩ => hn ⟨t1, List.mem_cons_of_mem _ ht1, h1⟩

theorem build_calls (cl : Client) (c : Nat) :
    (identityInUse cl c → (build cl).2.storageLeft c = some (cl.capacity c) ∧
      capacityCalls c (build cl).2.log = 1) ∧
    (¬ identityInUse cl c → (build cl).2.storageLeft c = none ∧
      capacityCalls c (build cl).2.log = 0) := by
  obtain ⟨g1, g2, g3⟩ := buildFold_calls cl cl.torrents ([], initState cl)
    (fun c => Or.inl ⟨rfl, rfl⟩)
  have hb : (build cl).2 = (cl.torrents.foldl (buildTorrent cl) ([], initState cl)).2 := rfl
  rw [hb]
  constructor
  · intro h
    rcases g1 c with ⟨h1, -⟩ | h1
    · exact absurd h1 (g2 c (Or.inr h))
    · exact h1
  · intro h
    rcases g1 c with h1 | ⟨h1, -⟩
    · exact h1
    · rw [g3 c rfl h] at h1
      exact absurd h1 (by simp)

theorem dispatch_no_capacity (ops : PeerOps) (cl : Client)
    (mapOrder : Nat → List Nat → List Nat) (hmap : ∀ k l, (mapOrder k l).Perm l)
    (pieces : List pieceRequestOrderPiece) (k : Nat) (s : State) (hc : s.contributed = []) :
    ∃ s2, dispatch ops cl mapOrder k pieces s = some s2 ∧ s2.contributed = [] ∧
      ∃ new, s2.log = s.log ++ new ∧ ∀ e ∈ new, ∀ c, e ≠ Event.capacity c := by
  induction pieces generalizing k s with
  | nil => exact ⟨s, rfl, hc, [], by simp, by simp⟩
  | cons p rest ih =>
    have hstep : ∃ s1, processPiece ops cl (mapOrder k) p s = some s1 ∧ s1.contributed = [] ∧
        ∃ new, s1.log = s.log ++ new ∧ ∀ e ∈ new, ∀ c, e ≠ Event.capacity c := by
      unfold processPiece
      split
      · exact ⟨s, rfl, hc, [], by simp, by simp⟩
      · cases hadm : admission cl p s with
        | none => exact ⟨s, rfl, hc, [], by simp, by simp⟩
        | some s1 =>
          obtain ⟨a1, -, -, a4⟩ := admission_some cl p s s1 hadm
          obtain ⟨s2, h1, h2, -, -, -, new, h6, h7⟩ := requestAndRotate_spec ops (mapOrder k) p
            (s.allPeers p.t) ((cl.torrent p.t).piece p.index).undirtied s1 (a1.trans hc)
            (hmap k)
          refine ⟨s2, h1, h2,
            Event.reserve p.t p.index ((cl.torrent p.t).piece p.index).length :: new,
            by rw [h6, a4]; simp, fun e he c hcap => ?_⟩
          rcases List.mem_cons.1 he with h | h
          · rw [hcap] at h
            exact absurd h (by simp)
          · have := h7 e h
            rw [hcap] at this
            exact absurd this (by simp [Event.isPeerCall])
    obtain ⟨s1, h1, h2, new1, h3, h4⟩ := hstep
    obtain ⟨s2, g1, g2, new2, g3, g4⟩ := ih (k + 1) s1 h2
    refine ⟨s2, by rw [dispatch, h1]; exact g1, g2, new1 ++ new2,
      by rw [g3, h3, List.append_assoc], fun e he => ?_⟩
    rcases List.mem_append.1 he with h | h
    · exact h4 e h
    · exact g4 e h

/-- C13: in a pass, the capacity function of a storage budget identity that some
torrent with loaded info refers to is called exactly once, in the build step,
however many torrents share the identity and whatever pieces are considered; the
value it returned is the counter cached for the identity, and the piece loop and the
interest turn-off make no call of any capacity function. (An identity that no
torrent with loaded info refers to is not queried.) -/
theorem capacity_queried_once (ops : PeerOps) (mapOrder : Nat → List Nat → List Nat)
    (cl : Client) (hmap : ∀ k l, (mapOrder k l).Perm l) :
    ∃ s, doRequests ops mapOrder cl = some s ∧
      (∀ c, identityInUse cl c →
        (build cl).2.storageLeft c = some (cl.capacity c) ∧
          capacityCalls c (build cl).2.log = 1 ∧ capacityCalls c s.log = 1) ∧
      (∀ c, ¬ identityInUse cl c → capacityCalls c s.log = 0) := by
  obtain ⟨s, h1, -, new, h3, h4⟩ := dispatch_no_capacity ops cl mapOrder hmap (build cl).1 0
    (build cl).2 (build_inv cl).1
  obtain ⟨-, f2, -⟩ := interestFold_spec (visitedPeers cl) s
  rw [← interestPhase_eq_foldl] at f2
  have hlog : ∀ c, capacityCalls c (interestPhase cl s).log =
      capacityCalls c (build cl).2.log := by
    intro c
    have hz : capacityCalls c (((visitedPeers cl).filter fun p => idleCondition (s.peer p)).map
        (fun p => Event.setInterested p false)) = 0 :=
      capacityCalls_eq_zero c _ fun e he hcap => by
        rw [List.mem_map] at he
        obtain ⟨q, -, hq⟩ := he
        rw [hcap] at hq
        exact absurd hq (by simp)
    rw [f2, h3, capacityCalls_append, capacityCalls_append, hz,
      capacityCalls_eq_zero c new (fun e he => h4 e he c)]
    omega
  refine ⟨interestPhase cl s, by unfold doRequests; rw [h1], fun c hc => ?_, fun c hc => ?_⟩
  · obtain ⟨b1, b2⟩ := (build_calls cl c).1 hc
    exact ⟨b1, b2, by rw [hlog, b2]⟩
  · rw [hlog]
    exact ((build_calls cl c).2 hc).2

/-- Witness of C13: two torrents share the identity 7; it is queried once in the
pass. -/
theorem capacity_queried_once_witness :
    ∃ s, doRequests oneSlotOps (fun _ c => c) sharedBudgetClient = some s ∧
      (∀ c, identityInUse sharedBudgetClient c →
        (build sharedBudgetClient).2.storageLeft c = some (sharedBudgetClient.capacity c) ∧
          capacityCalls c (build sharedBudgetClient).2.log = 1 ∧ capacityCalls c s.log = 1) ∧
      (∀ c, ¬ identityInUse sharedBudgetClient c → capacityCalls c s.log = 0) :=
  capacity_queried_once oneSlotOps (fun _ c => c) sharedBudgetClient
    (fun _ _ => List.Perm.refl _)

/-! ## The ranking of the peers -/

theorem primeStorage_peer (cl : Client) (s : State) (t : Nat) :
    (primeStorage cl s t).peer = s.peer ∧ (primeStorage cl s t).allPeers = s.allPeers := by
  unfold primeStorage
  split
  · exact ⟨rfl, rfl⟩
  · split
    · exact ⟨rfl, rfl⟩
    · exact ⟨rfl, rfl⟩

theorem buildTorrent_allPeers (cl : Client) (b : List pieceRequestOrderPiece × State) (t : Nat)
    (hpeer : b.2.peer = cl.peer) :
    (buildTorrent cl b t).2.peer = cl.peer ∧
    (buildTorrent cl b t).2.allPeers =
      Function.update b.2.allPeers t (Slice (peerLess cl.peer) (livePeers cl t)) := by
  unfold buildTorrent livePeers
  cases h : (cl.torrent t).haveInfo
  · simp [hpeer]
  · simp [(primeStorage_peer cl b.2 t).1, (primeStorage_peer cl b.2 t).2, hpeer]

theorem buildFold_allPeers (cl : Client) (ts : List Nat)
    (b : List pieceRequestOrderPiece × State) (hpeer : b.2.peer = cl.peer) :
    (ts.foldl (buildTorrent cl) b).2.peer = cl.peer ∧
    ∀ t, (ts.foldl (buildTorrent cl) b).2.allPeers t =
      if t ∈ ts then Slice (peerLess cl.peer) (livePeers cl t) else b.2.allPeers t := by
  induction ts generalizing b with
  | nil => exact ⟨hpeer, fun t => by simp⟩
  | cons t0 ts ih =>
    obtain ⟨h1, h2⟩ := buildTorrent_allPeers cl b t0 hpeer
    obtain ⟨g1, g2⟩ := ih (buildTorrent cl b t0) h1
    simp only [List.foldl_cons]
    refine ⟨g1, fun t => ?_⟩
    rw [g2 t, h2]
    by_cases ht : t ∈ ts
    · simp [ht]
    · by_cases ht0 : t = t0
      · subst ht0
        simp [ht]
      · simp [ht, ht0, Function.update_noteq ht0]

theorem build_allPeers (cl : Client) (t : Nat) (ht : t ∈ cl.torrents) :
    (build cl).2.allPeers t = Slice (peerLess cl.peer) (livePeers cl t) := by
  have hb : (build cl).2 = (cl.torrents.foldl (buildTorrent cl) ([], initState cl)).2 := rfl
  rw [hb, (buildFold_allPeers cl cl.torrents ([], initState cl) rfl).2 t, if_pos ht]

/-! ### Ranking when every rate is a number -/

theorem sink_sorted_on {α : Type} (lt : α → α → Bool) (P : α → Prop)
    (hasym : ∀ a b, P a → P b → lt a b = true → lt b a = false)
    (hneg : ∀ a b c, P a → P b → P c → lt a b = false → lt b c = false → lt a c = false)
    (x : α) (l : List α) (hx : P x) (hl : ∀ y ∈ l, P y)
    (h : l.Pairwise fun u v => lt u v = false) :
    (sink lt x l).Pairwise fun u v => lt u v = false := by
  induction l with
  | nil => simp [sink]
  | cons y rest ih =>
    rw [List.pairwise_cons] at h
    have hy : P y := hl y (List.mem_cons_self _ _)
    have hrest : ∀ z ∈ rest, P z := fun z hz => hl z (List.mem_cons_of_mem _ hz)
    unfold sink
    split
    · rename_i hxy
      rw [List.pairwise_cons]
      refine ⟨fun z hz => ?_, ih hrest h.2⟩
      rcases List.mem_cons.1 ((sink_perm lt x rest).mem_iff.1 hz) with rfl | hz
      · exact hasym _ _ hx hy hxy
      · exact h.1 z hz
    · rename_i hxy
      have hxy : lt x y = false := by simpa using hxy
      rw [List.pairwise_cons]
      refine ⟨fun z hz => ?_, List.pairwise_cons.2 h⟩
      rcases List.mem_cons.1 hz with rfl | hz
      · exact hxy
      · exact hneg _ _ _ hx hy (hrest z hz) hxy (h.1 z hz)

theorem foldl_sink_sorted_on {α : Type} (lt : α → α → Bool) (P : α → Prop)
    (hasym : ∀ a b, P a → P b → lt a b = true → lt b a = false)
    (hneg : ∀ a b c, P a → P b → P c → lt a b = false → lt b c = false → lt a c = false)
    (l acc : List α) (hl : ∀ y ∈ l, P y) (hacc : ∀ y ∈ acc, P y)
    (h : acc.Pairwise fun u v => lt u v = false) :
    (l.foldl (fun rev x => sink lt x rev) acc).Pairwise fun u v => lt u v = false := by
  induction l generalizing acc with
  | nil => simpa using h
  | cons x xs ih =>
    have hx : P x := hl x (List.mem_cons_self _ _)
    refine ih (sink lt x acc) (fun y hy => hl y (List.mem_cons_of_mem _ hy)) (fun y hy => ?_)
      (sink_sorted_on lt P hasym hneg x acc hx hacc h)
    rcases List.mem_cons.1 ((sink_perm lt x acc).mem_iff.1 hy) with rfl | hy
    · exact hx
    · exact hacc y hy

theorem rankedBefore_iff_of_numbers (peer : Nat → Peer) (a b : Nat) (x y : Int)
    (ha : (peer a).downloadRate = float64.num x) (hb : (peer b).downloadRate = float64.num y) :
    rankedBefore peer a b ↔ (y ≤ x ∧ (x = y → b ≤ a)) := by
  unfold rankedBefore
  rw [ha, hb]
  simp [float64.le, float64.eq]

theorem peerLess_iff_of_numbers (peer : Nat → Peer) (a b : Nat) (x y : Int)
    (ha : (peer a).downloadRate = float64.num x) (hb : (peer b).downloadRate = float64.num y) :
    peerLess peer b a = false ↔ (y ≤ x ∧ (x = y → b ≤ a)) := by
  unfold peerLess multiless.Computation.Less multiless.Computation.Float64
    multiless.Computation.Uintptr multiless.Computation.EagerSameLess multiless.New
  rw [ha, hb]
  simp only [float64.eq, float64.lt]
  rcases lt_trichotomy x y with h | h | h
  · have h1 : ¬ x = y := by omega
    simp [h1, h]
  · rcases lt_trichotomy a b with g | g | g
    · have g1 : ¬ a = b := by omega
      simp [h, g, g1]
    · simp [h, g]
    · have g1 : ¬ a = b := by omega
      have g2 : ¬ a < b := by omega
      simp [h, g1, g2]
      omega
  · have h1 : ¬ x = y := by omega
    have h2 : ¬ x < y := by omega
    simp [h1, h2]
    omega

theorem isNumber_iff (r : float64) : r.isNumber = true ↔ ∃ x, r = float64.num x := by
  cases r with
  | NaN => simp [float64.isNumber]
  | num x => simp [float64.isNumber]

theorem Slice_ranked_of_numbers (peer : Nat → Peer) (l : List Nat)
    (hnum : ∀ p ∈ l, (peer p).downloadRate.isNumber = true) :
    (Slice (peerLess peer) l).Perm l ∧
    (Slice (peerLess peer) l).Pairwise (rankedBefore peer) := by
  have hperm : (Slice (peerLess peer) l).Perm l := SliceStable_perm (peerLess peer) l
  refine ⟨hperm, ?_⟩
  have hsorted : (l.foldl (fun rev x => sink (peerLess peer) x rev) []).Pairwise
      fun u v => peerLess peer u v = false := by
    refine foldl_sink_sorted_on (peerLess peer)
      (fun p => (peer p).downloadRate.isNumber = true) ?_ ?_ l [] hnum (by simp)
      List.Pairwise.nil
    · intro a b ha hb hab
      obtain ⟨x, hx⟩ := (isNumber_iff _).1 ha
      obtain ⟨y, hy⟩ := (isNumber_iff _).1 hb
      rw [peerLess_iff_of_numbers peer a b x y hx hy]
      have h1 : ¬ (x ≤ y ∧ (y = x → a ≤ b)) := fun hr => by
        rw [← peerLess_iff_of_numbers peer b a y x hy hx, hab] at hr
        exact absurd hr (by simp)
      constructor
      · by_contra hlt
        exact h1 ⟨by omega, fun e => by omega⟩
      · intro e
        by_contra hlt
        exact h1 ⟨by omega, fun _ => by omega⟩
    · intro a b c ha hb hc hab hbc
      obtain ⟨x, hx⟩ := (isNumber_iff _).1 ha
      obtain ⟨y, hy⟩ := (isNumber_iff _).1 hb
      obtain ⟨z, hz⟩ := (isNumber_iff _).1 hc
      rw [peerLess_iff_of_numbers peer c a z x hz hx]
      rw [peerLess_iff_of_numbers peer b a y x hy hx] at hab
      rw [peerLess_iff_of_numbers peer c b z y hz hy] at hbc
      refine ⟨by omega, fun e => ?_⟩
      have h1 := hab.2 (by omega)
      have h2 := hbc.2 (by omega)
      omega
  have hrev : (Slice (peerLess peer) l).Pairwise fun a b => peerLess peer b a = false := by
    unfold Slice
    rw [List.pairwise_reverse]
    exact hsorted
  refine hrev.imp_of_mem fun {a b} ha hb hab => ?_
  obtain ⟨x, hx⟩ := (isNumber_iff _).1 (hnum a (hperm.mem_iff.1 ha))
  obtain ⟨y, hy⟩ := (isNumber_iff _).1 (hnum b (hperm.mem_iff.1 hb))
  rw [rankedBefore_iff_of_numbers peer a b x y hx hy]
  exact (peerLess_iff_of_numbers peer a b x y hx hy).1 hab

theorem ranked_unique_of_numbers (peer : Nat → Peer) (l1 l2 : List Nat) (hperm : l1.Perm l2)
    (hnum : ∀ p ∈ l1, (peer p).downloadRate.isNumber = true)
    (h1 : l1.Pairwise (rankedBefore peer)) (h2 : l2.Pairwise (rankedBefore peer)) :
    l1 = l2 := by
  haveI : IsAntisymm Nat (fun a b => rankedBefore peer a b ∧
      (peer a).downloadRate.isNumber = true ∧ (peer b).downloadRate.isNumber = true) :=
    ⟨fun a b hab hba => by
      obtain ⟨x, hx⟩ := (isNumber_iff _).1 hab.2.1
      obtain ⟨y, hy⟩ := (isNumber_iff _).1 hab.2.2
      have g1 := (rankedBefore_iff_of_numbers peer a b x y hx hy).1 hab.1
      have g2 := (rankedBefore_iff_of_numbers peer b a y x hy hx).1 hba.1
      have e : x = y := by omega
      have := g1.2 e
      have := g2.2 e.symm
      omega⟩
  have k1 : l1.Pairwise (fun a b => rankedBefore peer a b ∧
      (peer a).downloadRate.isNumber = true ∧ (peer b).downloadRate.isNumber = true) :=
    h1.imp_of_mem fun {a b} ha hb hab => ⟨hab, hnum a ha, hnum b hb⟩
  have k2 : l2.Pairwise (fun a b => rankedBefore peer a b ∧
      (peer a).downloadRate.isNumber = true ∧ (peer b).downloadRate.isNumber = true) :=
    h2.imp_of_mem fun {a b} ha hb hab =>
      ⟨hab, hnum a (hperm.mem_iff.2 ha), hnum b (hperm.mem_iff.2 hb)⟩
  exact List.eq_of_perm_of_sorted hperm k1 k2

theorem peers_ranked_of_numbers (cl : Client) (t : Nat) (ht : t ∈ cl.torrents)
    (hnum : ∀ p ∈ livePeers cl t, (cl.peer p).downloadRate.isNumber = true) :
    (∀ p, p ∈ (build cl).2.allPeers t ↔
      (p ∈ (cl.torrent t).peers ∧ (cl.peer p).closed = false)) ∧
    ((build cl).2.allPeers t).Perm (livePeers cl t) ∧
    ((cl.torrent t).peers.Nodup → ((build cl).2.allPeers t).Nodup) ∧
    ((build cl).2.allPeers t).Pairwise (rankedBefore cl.peer) ∧
    (∀ (cl2 : Client) (t2 : Nat), t2 ∈ cl2.torrents → cl2.peer = cl.peer →
      (livePeers cl2 t2).Perm (livePeers cl t) →
      (build cl2).2.allPeers t2 = (build cl).2.allPeers t) := by
  rw [build_allPeers cl t ht]
  obtain ⟨hperm, hsorted⟩ := Slice_ranked_of_numbers cl.peer (livePeers cl t) hnum
  refine ⟨fun p => ?_, hperm, fun hnd => ?_, hsorted, fun cl2 t2 ht2 hpeer hlive => ?_⟩
  · rw [hperm.mem_iff]
    unfold livePeers
    rw [List.mem_filter]
    cases (cl.peer p).closed <;> simp
  · exact hperm.nodup_iff.2 (hnd.filter _)
  · rw [build_allPeers cl2 t2 ht2, hpeer]
    have hnum2 : ∀ p ∈ livePeers cl2 t2, (cl.peer p).downloadRate.isNumber = true :=
      fun p hp => hnum p (hlive.mem_iff.1 hp)
    obtain ⟨hperm2, hsorted2⟩ := Slice_ranked_of_numbers cl.peer (livePeers cl2 t2) hnum2
    exact ranked_unique_of_numbers cl.peer _ _ (hperm2.trans (hlive.trans hperm.symm))
      (fun p hp => hnum2 p (hperm2.mem_iff.1 hp)) hsorted2 hsorted

theorem peers_ranked_of_numbers_example :
    (build rankedClient).2.allPeers 0 = [20, 40, 10] ∧
    ((build rankedClient).2.allPeers 0).Pairwise (rankedBefore rankedClient.peer) :=
  ⟨by decide, (peers_ranked_of_numbers rankedClient 0 (by decide) (by decide)).2.2.2.1⟩

/-- C11 (the code misses it): the comparator of the peer sort reads the rates with
`==` and `<`, which are both false on a NaN. With the live peers 10 (rate 5),
20 (rate NaN) and 30 (rate 7) yielded in that order, no peer is found less than its
neighbour and the ranked list stays 10, 20, 30: peer 10 of rate 5 stands before peer
30 of rate 7, so the list is not in descending order of rate. Yielded in the orders
30, 20, 10 and 20, 10, 30 the same three peers are ranked 30, 20, 10 and 20, 30, 10:
the list is not determined by the live peers, their rates and their pointers. -/
theorem nan_rate_breaks_ranking :
    livePeers (nanRateClient [10, 20, 30]) 0 = [10, 20, 30] ∧
    (build (nanRateClient [10, 20, 30])).2.allPeers 0 = [10, 20, 30] ∧
    ((nanRateClient [10, 20, 30]).peer 10).downloadRate = float64.num 5 ∧
    ((nanRateClient [10, 20, 30]).peer 30).downloadRate = float64.num 7 ∧
    ¬ rankedBefore (nanRateClient [10, 20, 30]).peer 10 30 ∧
    ¬ ((build (nanRateClient [10, 20, 30])).2.allPeers 0).Pairwise
        (rankedBefore (nanRateClient [10, 20, 30]).peer) ∧
    (build (nanRateClient [30, 20, 10])).2.allPeers 0 = [30, 20, 10] ∧
    (build (nanRateClient [20, 10, 30])).2.allPeers 0 = [20, 30, 10] := by
  decide

end RequestStrategy
